import Mathlib

/-!
Verification of the moment expansion approximation (MEA) core of the `means` repository.

The development shallowly embeds the Python sources:

* `MEA_package/ProgramFiles/eq_mixedmoments.py` (mixed-moment equation terms),
* `src/means/approximation/mea/moment_expansion_approximation.py` (counter generation,
  raw-to-central substitution, closer selection),
* `MEA_package/ProgramFiles/ode_problem.py` (problem assembly, validation, model parsing).

Symbolic sympy expressions are embedded as the inductive type `Expr` with exact rational
constants, named species variables, named model parameters, sums, products and integer
powers; `Expr.eval` gives their meaning as rational-valued functions of valuations of the
variables and parameters, and `Expr.deriv` is the symbolic partial derivative.

The functions `derive_expr_from_counter_entry` and `get_factorial_term` are imported by the
source from `TaylorExpansion.py`, a file that is not among the provided sources; they are
modelled from the specification and marked as such in their doc comments.
-/

/-- Symbolic expressions: exact rational constants, species variables `y_i` (indexed by a
natural number), model parameters `c_i`, sums, products and integer powers.  This is the
fragment of the external symbolic engine that the embedded code manipulates; propensities
such as `c_2*y_0*y_2/(c_6 + y_0)` are expressible with a power of exponent `-1`. -/
inductive Expr where
  | num (q : ℚ)
  | var (i : ℕ)
  | param (i : ℕ)
  | add (a b : Expr)
  | mul (a b : Expr)
  | pow (a : Expr) (n : ℤ)
deriving DecidableEq

/-- Value of an expression at a valuation `v` of the species variables and `p` of the
parameters.  Integer powers are `zpow` on `ℚ` (so, as in Lean, `0 ^ (-1) = 0`; both sides of
every equation below use the same convention). -/
def Expr.eval (v p : ℕ → ℚ) : Expr → ℚ
  | num q => q
  | var i => v i
  | param i => p i
  | add a b => a.eval v p + b.eval v p
  | mul a b => a.eval v p * b.eval v p
  | pow a n => a.eval v p ^ n

/-- Symbolic partial derivative with respect to the species variable of index `i`,
modelling `sympy.diff`. -/
def Expr.deriv : Expr → ℕ → Expr
  | num _, _ => num 0
  | var j, i => num (if j = i then 1 else 0)
  | param _, _ => num 0
  | add a b, i => add (a.deriv i) (b.deriv i)
  | mul a b, i => add (mul (a.deriv i) b) (mul a (b.deriv i))
  | pow a n, i => mul (mul (num (n : ℚ)) (pow a (n - 1))) (a.deriv i)

/-- Python's `reduce(operator.mul, l)`.  On the empty list Python raises `TypeError`; the
embedding returns the junk value `1` there, and every theorem about a call site that could
receive an empty list carries a non-emptiness hypothesis instead. -/
def reduceMul : List Expr → Expr
  | [] => Expr.num 1
  | x :: xs => xs.foldl Expr.mul x

/-- Python's `reduce(operator.add, l)`; junk value `0` on the empty list (see `reduceMul`). -/
def reduceAdd : List Expr → Expr
  | [] => Expr.num 0
  | x :: xs => xs.foldl Expr.add x

/-- `eq_mixedmoments.make_f_of_x`: `(prod_i x_i ^ (k_i - e_i)) * propensity`.  The species
variables are given by their indices (`ymat` in the pipeline is the vector of species
symbols); the exponent is the (possibly negative) integer difference `k_i - e_i`. -/
def make_f_of_x (vars : List ℕ) (k_vec e_vec : List ℕ) (reaction : Expr) : Expr :=
  let all_xs := vars.enum.map fun iv =>
    Expr.pow (Expr.var iv.2) ((k_vec.getD iv.1 0 : ℤ) - (e_vec.getD iv.1 0 : ℤ))
  Expr.mul (reduceMul all_xs) reaction

/-- Iterated symbolic derivative with respect to variable `v`. -/
def iterDeriv (v : ℕ) : ℕ → Expr → Expr
  | 0, e => e
  | k + 1, e => (iterDeriv v k e).deriv v

/-- Modelled from the spec: the source imports `derive_expr_from_counter_entry` from
`TaylorExpansion.py`, which is not among the provided sources.  Per the specification
(section 4.3 step 2), it computes the mixed partial derivative of `expr` with respect to the
species variables according to the counter entry `c`: the i-th variable is differentiated
`c_i` times. -/
def derive_expr_from_counter_entry (expr : Expr) (vars : List ℕ) (c : List ℕ) : Expr :=
  (vars.zip c).foldl (fun e vc => iterDeriv vc.1 vc.2 e) expr

/-- Modelled from the spec: the source imports `get_factorial_term` from
`TaylorExpansion.py`, which is not among the provided sources.  Per the specification, the
Taylor coefficient divides by the factorial product of the counter entries, so the term is
`1 / (c_1! * ... * c_d!)`. -/
def get_factorial_term (c : List ℕ) : Expr :=
  Expr.num (1 / ((c.map Nat.factorial).prod : ℚ))

/-- `eq_mixedmoments.make_f_expectation`: one row per counter entry, the symbolic derivative
for that entry times its factorial term.  Counter entries are the moments' multi-indices
(their symbolic labels are not used by this function). -/
def make_f_expectation (vars : List ℕ) (expr : Expr) (counter : List (List ℕ)) :
    List Expr :=
  let derives := counter.map fun c => derive_expr_from_counter_entry expr vars c
  let factorial_terms := counter.map fun c => get_factorial_term c
  List.zipWith (fun d f => Expr.mul d f) derives factorial_terms

/-- One factor `k! / (e! * (k-e)!)` of `make_k_chose_e`.  In the source the factorials are
`sympy.factorial` applied to the Python integer difference `k - e`; when `e > k` sympy
evaluates the factorial of the negative integer to complex infinity, which makes the whole
quotient `0`, and that value is recorded directly here. -/
def binomial_factor (e k : ℕ) : ℚ :=
  if e ≤ k then (Nat.factorial k : ℚ) / ((Nat.factorial e : ℚ) * (Nat.factorial (k - e) : ℚ))
  else 0

/-- `eq_mixedmoments.make_k_chose_e`: the product over `zip(e_vec, k_vec)` of the factorial
quotients `k! / (e! * (k-e)!)`. -/
def make_k_chose_e (e_vec k_vec : List ℕ) : Expr :=
  reduceMul ((e_vec.zip k_vec).map fun ek => Expr.num (binomial_factor ek.1 ek.2))

/-- `eq_mixedmoments.make_s_pow_e`: the product over the entries of `e_vec` of
`S[i, reac_idx] ^ e_i`.  The stoichiometry matrix is embedded as a total function from
(row, column) to its integer entry. -/
def make_s_pow_e (S : ℕ → ℕ → ℤ) (reac_idx : ℕ) (e_vec : List ℕ) : Expr :=
  reduceMul (e_vec.enum.map fun ie => Expr.pow (Expr.num ((S ie.1 reac_idx : ℤ) : ℚ)) (ie.2 : ℤ))

/-- `itertools.product(as, bs)`: all pairs, first component varying slowest. -/
def listProd {α β : Type} (as : List α) (bs : List β) : List (α × β) :=
  as.flatMap fun a => bs.map fun b => (a, b)

/-- Python's ternary `zip` followed by elementwise combination. -/
def zip3With {α β γ δ : Type} (f : α → β → γ → δ) : List α → List β → List γ → List δ
  | a :: as, b :: bs, c :: cs => f a b c :: zip3With f as bs cs
  | _, _, _ => []

/-- `eq_mixedmoments.eq_mixedmoments`.  Following the source line by line:
`f_of_x_vec` over `itertools.product(amat, ekcounter)`; `f_expectation_vec` mapping
`make_f_expectation` over it; `s_pow_e_vec` over `itertools.product(range(len(amat)),
ekcounter)`; `k_choose_e_vec` is the per-`ekcounter` list of binomial terms repeated
`len(amat)` times (Python list multiplication); `product` multiplies the expectation column
by the two scalars; the reshape to `len(product) x len(product[0])` puts `product[i]` into
row `i`, and the final row vector sums each column.  The result is the list of entries of
that `1 x len(counter)` row vector. -/
def eq_mixedmoments (amat : List Expr) (counter : List (List ℕ)) (S : ℕ → ℕ → ℤ)
    (ymat : List ℕ) (kvec : List ℕ) (ekcounter : List (List ℕ)) : List Expr :=
  let f_of_x_vec := (listProd amat ekcounter).map fun rc => make_f_of_x ymat kvec rc.2 rc.1
  let f_expectation_vec := f_of_x_vec.map fun f => make_f_expectation ymat f counter
  let s_pow_e_vec := (listProd (List.range amat.length) ekcounter).map fun rc =>
    make_s_pow_e S rc.1 rc.2
  let k_choose_e_vec := (List.range amat.length).flatMap fun _ =>
    ekcounter.map fun e => make_k_chose_e e kvec
  let product := zip3With (fun f s ke => f.map fun x => Expr.mul (Expr.mul x s) ke)
    f_expectation_vec s_pow_e_vec k_choose_e_vec
  (List.range (product.headD []).length).map fun j =>
    reduceAdd (product.map fun row => row.getD j (Expr.num 0))

/-- Symbolic labels of moments: the integer `1` (order-0 moments), a species symbol, a raw
higher-order moment symbol `x_{d_1}_..._{d_S}` (keyed by its descriptor, which determines the
sympy string uniquely), or a central moment symbol `yx{i}` (keyed by the integer `i`). -/
inductive MSym where
  | one
  | sp (i : ℕ)
  | xm (d : List ℕ)
  | yxm (i : ℕ)
deriving DecidableEq

/-- `ode_problem.Moment`: a multi-index (one nonnegative integer per species) together with
a symbolic label. -/
structure Moment where
  n_vector : List ℕ
  symbol : MSym
deriving DecidableEq

/-- The order of a moment is the total of its multi-index. -/
def Moment.order (m : Moment) : ℕ :=
  m.n_vector.sum

/-- `itertools.product(range(k), repeat=n)`: all length-`n` tuples with entries below `k`,
in lexicographic order (first coordinate varying slowest). -/
def ituples (k : ℕ) : ℕ → List (List ℕ)
  | 0 => [[]]
  | n + 1 => (List.range k).flatMap fun d => (ituples k n).map fun t => d :: t

/-- Python's `sorted(l, lambda x,y: sum(x)-sum(y))` is a stable sort by the key `sum`.  For
a list whose elements all have sum at most `bound` (the case at the call site, where every
descriptor has sum at most `n_moments`), the stable result is the concatenation, for each
value `s = 0, ..., bound` of the key, of the elements of sum `s` in their original relative
order. -/
def sortBySum (bound : ℕ) (l : List (List ℕ)) : List (List ℕ) :=
  (List.range (bound + 1)).flatMap fun s => l.filter fun t => decide (t.sum = s)

/-- `MomentExpansionApproximation.generate_n_and_k_counters`, returning the pair
`(n_counter, k_counter)`.  Following the source: both counters start with the order-0 moment
labelled `1`; the raw counter continues with the order-1 moments labelled by the species
themselves; the higher raw descriptors are the filtered `itertools.product` tuples (entries
in `range(n_moments+1)`, sum in `(1, n_moments]`), stably sorted by total order, and
labelled `x_...`; the central counter reuses those descriptors (the extra `sum(m) > 1`
filter of the source is kept) with fresh labels `yx2, yx3, ...`. -/
def generate_n_and_k_counters (n_moments : ℕ) (species : List MSym) :
    List Moment × List Moment :=
  let nsp := species.length
  let k0 : List Moment := [⟨List.replicate nsp 0, MSym.one⟩]
  let n0 : List Moment := [⟨List.replicate nsp 0, MSym.one⟩]
  let descriptors := (List.range nsp).map fun i => (List.replicate nsp 0).set i 1
  let k1 := k0 ++ (descriptors.zip species).map fun ds => (⟨ds.1, ds.2⟩ : Moment)
  let k_counter_descriptors := (ituples (n_moments + 1) nsp).filter fun t =>
    decide (t.sum ≤ n_moments ∧ 1 < t.sum)
  let sorted_descriptors := sortBySum n_moments k_counter_descriptors
  let k_counter := k1 ++ sorted_descriptors.map fun d => (⟨d, MSym.xm d⟩ : Moment)
  let n_counter_descriptors := sorted_descriptors.filter fun m => decide (1 < m.sum)
  let n_counter := n0 ++ n_counter_descriptors.enum.map fun idxd =>
    (⟨idxd.2, MSym.yxm (idxd.1 + 2)⟩ : Moment)
  (n_counter, k_counter)

/-- The operations the substitution step uses from the external symbolic engine, kept
opaque (the spec lists the engine as an external collaborator).  `solveFor e s` stands for
`sympy.solve(e, s)` as the source uses its result (the returned solution list is substituted
wholesale), and `simp` stands for `sympy.simplify`. -/
structure SymEngine (E : Type) where
  symExpr : MSym → E
  sub : E → E → E
  solveFor : E → MSym → E
  subst : E → MSym → E → E
  simp : E → E

/-- The symbols of the raw moments of order greater than 1, in counter order
(`raw_lhs` in the source). -/
def raw_moment_symbols (k_counter : List Moment) : List MSym :=
  (k_counter.filter fun m => decide (1 < m.order)).map Moment.symbol

/-- The symbols of the central moments of order greater than 1, in counter order
(`central_symbols` in the source). -/
def central_moment_symbols (n_counter : List Moment) : List MSym :=
  (n_counter.filter fun m => decide (1 < m.order)).map Moment.symbol

/-- The pairs `(raw symbol, solved replacement)` of the substitution step: each equation
`central_from_raw_expr - central_symbol` is solved for the corresponding raw symbol
(`eq_to_solve`, `solved_xs` and their zip with `raw_lhs` in the source). -/
def solvedPairs {E : Type} (eng : SymEngine E) (central_from_raw_exprs : List E)
    (n_counter k_counter : List Moment) : List (MSym × E) :=
  let raw_lhs := raw_moment_symbols k_counter
  let eq_to_solve := List.zipWith (fun cs cfr => eng.sub cfr (eng.symExpr cs))
    (central_moment_symbols n_counter) central_from_raw_exprs
  let solved_xs := List.zipWith (fun rhs rlhs => eng.solveFor rhs rlhs) eq_to_solve raw_lhs
  raw_lhs.zip solved_xs

/-- `MomentExpansionApproximation.substitute_raw_with_central`: iterate over the reversed
list of `(raw symbol, solution)` pairs, substituting into every expression
(`applyfunc` on the matrix of central-moment expressions), then apply one final
simplification to every expression (`out_exprs.applyfunc(sp.simplify)`). -/
def substitute_raw_with_central {E : Type} (eng : SymEngine E)
    (central_moments_exprs central_from_raw_exprs : List E)
    (n_counter k_counter : List Moment) : List E :=
  let out := ((solvedPairs eng central_from_raw_exprs n_counter k_counter).reverse).foldl
    (fun acc p => acc.map fun x => eng.subst x p.1 p.2) central_moments_exprs
  out.map eng.simp

/-- The substitution step as the specification words it: after each substitution the
expressions are simplified before the next substitution is performed.  Stated for
comparison with `substitute_raw_with_central`, which is what the source implements. -/
def substitute_raw_with_central_specReading {E : Type} (eng : SymEngine E)
    (central_moments_exprs central_from_raw_exprs : List E)
    (n_counter k_counter : List Moment) : List E :=
  ((solvedPairs eng central_from_raw_exprs n_counter k_counter).reverse).foldl
    (fun acc p => (acc.map fun x => eng.subst x p.1 p.2).map eng.simp) central_moments_exprs

/-- Sequential application of substitutions to one expression, in list order. -/
def substChain {E : Type} (eng : SymEngine E) : List (MSym × E) → E → E
  | [], x => x
  | p :: ps, x => substChain eng ps (eng.subst x p.1 p.2)

/-- The three closure strategies of the pipeline.  Modelled from the spec: the closer
classes themselves (`ZeroCloser`, `NormalCloser`, `LogNormalCloser`) live in modules that
are not among the provided sources; per the specification they are fixed, interchangeable
policies whose construction succeeds for every truncation order. -/
inductive CloserKind where
  | zero
  | normal
  | logNormal
deriving DecidableEq

/-- The `supported_closers` dictionary of `MomentExpansionApproximation.__init__`. -/
def supported_closers : List (String × CloserKind) :=
  [("log-normal", CloserKind.logNormal), ("zero", CloserKind.zero),
   ("normal", CloserKind.normal)]

/-- The configuration failure of `MomentExpansionApproximation.__init__` (a `KeyError`
carrying the unsupported closer name). -/
inductive ConfigError where
  | unsupportedCloser (name : String)
deriving DecidableEq

/-- `MomentExpansionApproximation.__init__`: store the truncation order, then look the
closer name up in `supported_closers`; an unknown name raises before any symbolic work (the
derivation itself only happens later, in `run`).  On success the state is the stored order
together with the selected closer. -/
def momentExpansionApproximationInit (n_moments : ℕ) (closer : String) :
    Except ConfigError (ℕ × CloserKind) :=
  match supported_closers.lookup closer with
  | some c => Except.ok (n_moments, c)
  | none => Except.error (ConfigError.unsupportedCloser closer)

/-- A Python `dict` assignment `d[k] = v` on an association list: overwrite the binding in
place if the key is present, append it otherwise. -/
def dict_insert {α β : Type} [DecidableEq α] : List (α × β) → α → β → List (α × β)
  | [], k, v => [(k, v)]
  | kv :: rest, k, v => if kv.1 = k then (k, v) :: rest else kv :: dict_insert rest k v

/-- `ODEProblem.make_moment_dic`: `dic[m] = i` for `i, m` in `enumerate(moments)`.
Duplicate moments collapse onto one key, keeping the last index. -/
def make_moment_dic {α : Type} [DecidableEq α] (moments : List α) : List (α × ℕ) :=
  moments.enum.foldl (fun d im => dict_insert d im.2 im.1) []

/-- The validated `ODEProblem` artifact of `MEA_package/ProgramFiles/ode_problem.py`:
left- and right-hand sides, a copy of the constants, and the moment dictionary. -/
structure ODEProblemData (E α : Type) where
  left_hand_side : List E
  right_hand_side : List E
  constants : List E
  moment_dic : List (α × ℕ)
deriving DecidableEq

/-- What `ODEProblem.validate` raises on each of its two checks.  The first message,
`"There is i% left hand side equations and %i right hand side ones. ..."`, holds exactly
two conversions (`% le`: blank flag, `l` length modifier, `e` conversion - and `%i`), so
its `ValueError` is built and carries both counts (garbled, but interpolated).  The second
message, `"There is i% equations and %i hand side and %i moments. ..."`, holds three
conversions (`% e`, `%i`, `%i`) for the two arguments supplied, so evaluating the message
raises `TypeError: not enough arguments for format string` before the `ValueError` is
constructed: construction still fails at this check, but the escaping exception carries
neither count. -/
inductive ValidationError where
  | lhsRhsCountMismatch (lhsRows rhsRows : ℕ)
  | notEnoughFormatArgs
deriving DecidableEq

/-- `ODEProblem.__init__` followed by the `validate` it calls: store the fields (constants
are copied, `constants[:]`), build the moment dictionary, then check
`left_hand_side.rows == right_hand_side.rows` and `left_hand_side.rows == len(moment_dic)`;
each violation raises. -/
def ODEProblem_construct {E α : Type} [DecidableEq α] (lhs rhs constants : List E)
    (moments : List α) : Except ValidationError (ODEProblemData E α) :=
  let dic := make_moment_dic moments
  if lhs.length ≠ rhs.length then
    Except.error (ValidationError.lhsRhsCountMismatch lhs.length rhs.length)
  else if lhs.length ≠ dic.length then
    Except.error ValidationError.notEnoughFormatArgs
  else Except.ok ⟨lhs, rhs, constants, dic⟩

/-- A line of the persisted textual form, as its sequence of characters (the embedding of
`parse_model` works on `input.split("\n")`, one `Line` per element). -/
abbrev Line : Type := List Char

/-- Python's `line.rstrip()`: remove trailing whitespace. -/
def rstrip (s : Line) : Line :=
  (List.dropWhile Char.isWhitespace s.reverse).reverse

/-- Section header `RHS of equations:`. -/
def STRING_RIGHT_HAND : Line :=
  ['R', 'H', 'S', ' ', 'o', 'f', ' ', 'e', 'q', 'u', 'a', 't', 'i', 'o', 'n', 's', ':']

/-- Section header `LHS:`. -/
def STRING_LEFT_HAND : Line := ['L', 'H', 'S', ':']

/-- Section header `Constants:`. -/
def STRING_CONSTANT : Line := ['C', 'o', 'n', 's', 't', 'a', 'n', 't', 's', ':']

/-- Section header `List of moments:`. -/
def STRING_MOM : Line :=
  ['L', 'i', 's', 't', ' ', 'o', 'f', ' ', 'm', 'o', 'm', 'e', 'n', 't', 's', ':']

/-- Appending an entry to the list stored under key `k` (`all_fields[field].append(...)`;
the key is always present when the source reaches this statement, since setting the current
field always (re)binds it first). -/
def dict_append (d : List (Line × List Line)) (k : Line) (v : Line) :
    List (Line × List Line) :=
  d.map fun kv => if kv.1 = k then (kv.1, kv.2 ++ [v]) else kv

/-- The field-collection loop of `parse_model`: a line containing `":"` becomes the current
field header (rstripped) and rebinds that key to an empty list; otherwise, if a field is
current, the rstripped line is appended to it when non-empty, and blank lines are skipped.
Lines before the first header are ignored. -/
def collect_fields : List Line → Option Line → List (Line × List Line) →
    List (Line × List Line)
  | [], _, acc => acc
  | line :: rest, field, acc =>
    if ':' ∈ line then
      collect_fields rest (some (rstrip line)) (dict_insert acc (rstrip line) [])
    else
      match field with
      | some f =>
        let rsline := rstrip line
        if rsline ≠ [] then collect_fields rest field (dict_append acc f rsline)
        else collect_fields rest field acc
      | none => collect_fields rest field acc

/-- The sectioned content `parse_model` extracts before handing the entries to the external
symbolic engine (`sympy.simplify` / `sympy.Matrix` / `eval` on each line, which this
embedding keeps as the raw entry lines). -/
structure ParsedModel where
  left_hand_side : List Line
  right_hand_side : List Line
  constants : List Line
  moments : List Line
deriving DecidableEq

/-- A missing-section failure of `parse_model` (the `KeyError` branch), carrying the
section name the source prints. -/
inductive ParseError where
  | missingSection (name : Line)
deriving DecidableEq

/-- `ode_problem.parse_model` on the already-split lines (`input_filename.split("\n")` in
the `from_string` branch): collect the sections, then query the four required fields in the
source's order.  Faithful to the source, the handler for a missing `List of moments:`
section reports `STRING_CONSTANT` (the source's lines 121-124 print `STRING_CONSTANT`, not
`STRING_MOM`, in that branch). -/
def parse_model (lines : List Line) : Except ParseError ParsedModel :=
  let all_fields := collect_fields lines none []
  match all_fields.lookup STRING_RIGHT_HAND with
  | none => Except.error (ParseError.missingSection STRING_RIGHT_HAND)
  | some rhs =>
    match all_fields.lookup STRING_LEFT_HAND with
    | none => Except.error (ParseError.missingSection STRING_LEFT_HAND)
    | some lhs =>
      match all_fields.lookup STRING_CONSTANT with
      | none => Except.error (ParseError.missingSection STRING_CONSTANT)
      | some consts =>
        match all_fields.lookup STRING_MOM with
        | none => Except.error (ParseError.missingSection STRING_CONSTANT)
        | some moms => Except.ok ⟨lhs, rhs, consts, moms⟩

/-- Recursive form of `make_moment_dic`: insert the elements of `l` with consecutive
indices starting at `n` into the dictionary `d`. -/
def mmd_go {α : Type} [DecidableEq α] (d : List (α × ℕ)) (n : ℕ) : List α → List (α × ℕ)
  | [] => d
  | a :: l => mmd_go (dict_insert d a n) (n + 1) l

/-- A trace instantiation of the engine used to separate the source's substitution routine
from the specification's reading of it: expressions are bare counters of how many times
`simplify` has been applied to them; substitution leaves the counter unchanged. -/
def countingEngine : SymEngine ℕ :=
  ⟨fun _ => 0, fun a b => a + b, fun e _ => e, fun x _ _ => x, fun x => x + 1⟩

/-- A raw counter with two moments of order above one, for exercising the substitution. -/
def kcTwo : List Moment := [⟨[2], MSym.xm [2]⟩, ⟨[3], MSym.xm [3]⟩]

/-- The matching central counter. -/
def ncTwo : List Moment := [⟨[2], MSym.yxm 2⟩, ⟨[3], MSym.yxm 3⟩]

/-- A model file (as lines) with the `LHS:`, `RHS of equations:` and `Constants:` sections
present and the `List of moments:` section absent: the lines `LHS:`, `y_0`,
`RHS of equations:`, `c_0*y_0`, `Constants:`, `c_0`. -/
def missingMomentsLines : List Line :=
  [STRING_LEFT_HAND, ['y', '_', '0'], STRING_RIGHT_HAND,
   ['c', '_', '0', '*', 'y', '_', '0'], STRING_CONSTANT, ['c', '_', '0']]

/-- Buckets of an empty list are empty. -/
theorem sortBySum_nil (bound : ℕ) : sortBySum bound [] = [] := by
  simp [sortBySum]

/-- The descriptor filter of counter generation keeps nothing at truncation order 0. -/
theorem filter_descriptors_order_zero (l : List (List ℕ)) :
    (l.filter fun t => decide (t.sum ≤ 0 ∧ 1 < t.sum)) = [] := by
  rw [List.filter_eq_nil_iff]
  intro t _
  simp only [decide_eq_true_eq, not_and]
  omega

/-- C5 counterexample: at truncation order `N = 0 < 1` (and a single species), counter
generation raises no error and returns the counter pair consisting of the order-0 moment
and, in the raw counter, the order-1 species moment; no `InvalidOrder` rejection exists in
the source. -/
theorem generate_counters_accepts_order_zero :
    generate_n_and_k_counters 0 [MSym.sp 0] =
      ([⟨[0], MSym.one⟩], [⟨[0], MSym.one⟩, ⟨[1], MSym.sp 0⟩]) := by
  decide

/-- C5 (amended): counter generation performs no validation of the truncation order or the
species count.  For order `N = 0 < 1` it returns, for every species list, the pair made of
the order-0 moment and (in the raw counter) the order-1 species moments; for zero species it
returns the pair of singleton order-0 counters for every order. -/
theorem generate_counters_no_order_validation :
    (∀ species : List MSym,
      generate_n_and_k_counters 0 species =
        ([⟨List.replicate species.length 0, MSym.one⟩],
         ⟨List.replicate species.length 0, MSym.one⟩ ::
           (((List.range species.length).map fun i =>
               (List.replicate species.length 0).set i 1).zip species).map fun ds =>
             (⟨ds.1, ds.2⟩ : Moment))) ∧
    (∀ n_moments : ℕ,
      generate_n_and_k_counters n_moments [] = ([⟨[], MSym.one⟩], [⟨[], MSym.one⟩])) := by
  constructor
  · intro species
    simp only [generate_n_and_k_counters]
    rw [filter_descriptors_order_zero, sortBySum_nil]
    simp
  · intro n_moments
    simp only [generate_n_and_k_counters, List.length_nil]
    have hf : (ituples (n_moments + 1) 0).filter
        (fun t => decide (t.sum ≤ n_moments ∧ 1 < t.sum)) = [] := by
      rw [show ituples (n_moments + 1) 0 = [[]] from rfl]
      simp
    rw [hf, sortBySum_nil]
    simp

/-- One sweep of substitutions over a list of expressions, iterated with `foldl`, is the
elementwise sequential application of the whole substitution chain. -/
theorem foldl_map_substChain {E : Type} (eng : SymEngine E) (ps : List (MSym × E)) :
    ∀ acc : List E,
      ps.foldl (fun acc p => acc.map fun x => eng.subst x p.1 p.2) acc =
        acc.map fun x => substChain eng ps x := by
  induction ps with
  | nil => intro acc; simp [substChain]
  | cons p ps ih =>
    intro acc
    rw [List.foldl_cons, ih, List.map_map]
    rfl

/-- C6 counterexample: on the engine that merely counts applications of `simplify`, the
source's substitution routine and the specification's per-step-simplification reading
disagree (with two raw symbols of order above one the source applies `simplify` once per
expression, the spec's reading twice). -/
theorem substitute_raw_with_central_not_per_step :
    substitute_raw_with_central countingEngine [0] [0, 0] ncTwo kcTwo ≠
      substitute_raw_with_central_specReading countingEngine [0] [0, 0] ncTwo kcTwo := by
  decide

/-- C6 (amended): `substitute_raw_with_central` solves the equations
`central_from_raw - central_symbol = 0` for the raw symbols of order above one
(`solvedPairs`), substitutes the solutions into every central-moment expression processing
the pairs in reverse counter order (so from the highest-order raw symbol downward, the raw
counter being sorted by ascending order), and applies a single expression simplification to
each expression after all the substitutions rather than after each one. -/
theorem substitute_raw_with_central_single_final_simplification {E : Type}
    (eng : SymEngine E) (central_moments_exprs central_from_raw_exprs : List E)
    (n_counter k_counter : List Moment) :
    substitute_raw_with_central eng central_moments_exprs central_from_raw_exprs
        n_counter k_counter =
      central_moments_exprs.map fun x =>
        eng.simp (substChain eng
          ((solvedPairs eng central_from_raw_exprs n_counter k_counter).reverse) x) := by
  unfold substitute_raw_with_central
  rw [foldl_map_substChain, List.map_map]
  rfl

/-- C7: the closer dictionary of `MomentExpansionApproximation.__init__` accepts exactly
the names `zero`, `normal` and `log-normal`, storing the selected closer (and the truncation
order) without error, and rejects every other name with the configuration error carrying
that name, before any symbolic derivation is attempted (`run` is the later, separate step
that derives). -/
theorem momentExpansionApproximationInit_closer_validation (n : ℕ) (name : String) :
    momentExpansionApproximationInit n "zero" = Except.ok (n, CloserKind.zero) ∧
    momentExpansionApproximationInit n "normal" = Except.ok (n, CloserKind.normal) ∧
    momentExpansionApproximationInit n "log-normal" = Except.ok (n, CloserKind.logNormal) ∧
    (name ≠ "zero" → name ≠ "normal" → name ≠ "log-normal" →
      momentExpansionApproximationInit n name =
        Except.error (ConfigError.unsupportedCloser name)) := by
  refine ⟨rfl, rfl, rfl, fun h1 h2 h3 => ?_⟩
  have e1 : (name == "zero") = false := beq_eq_false_iff_ne.mpr h1
  have e2 : (name == "normal") = false := beq_eq_false_iff_ne.mpr h2
  have e3 : (name == "log-normal") = false := beq_eq_false_iff_ne.mpr h3
  simp [momentExpansionApproximationInit, supported_closers, List.lookup, e1, e2, e3]

/-- C7 witness: the three supported names are accepted and a fourth concrete name is
rejected at construction time. -/
theorem momentExpansionApproximationInit_closer_validation_witness :
    momentExpansionApproximationInit 2 "zero" = Except.ok (2, CloserKind.zero) ∧
    momentExpansionApproximationInit 2 "gaussian" =
      Except.error (ConfigError.unsupportedCloser "gaussian") := by
  exact ⟨(momentExpansionApproximationInit_closer_validation 2 "gaussian").1,
    (momentExpansionApproximationInit_closer_validation 2 "gaussian").2.2.2
      (by decide) (by decide) (by decide)⟩

/-- C9: on a model file containing the `LHS:`, `RHS of equations:` and `Constants:`
sections but no `List of moments:` section, `parse_model` fails with a missing-section
error that names `Constants:` - a section that is present - instead of the absent
`List of moments:` section. -/
theorem parse_model_missing_moments_misnames_section :
    parse_model missingMomentsLines =
      Except.error (ParseError.missingSection STRING_CONSTANT) ∧
    STRING_CONSTANT ≠ STRING_MOM := by
  exact ⟨rfl, by decide⟩

/-- Keys after a dictionary assignment: the old keys plus the inserted one. -/
theorem mem_keys_dict_insert {α β : Type} [DecidableEq α] (d : List (α × β)) (k : α) (v : β)
    (x : α) : x ∈ (dict_insert d k v).map Prod.fst ↔ x ∈ d.map Prod.fst ∨ x = k := by
  induction d with
  | nil => simp [dict_insert]
  | cons kv rest ih =>
    obtain ⟨k1, v1⟩ := kv
    by_cases h : k1 = k
    · subst h
      simp [dict_insert]
      tauto
    · simp [dict_insert, h, ih]
      tauto

/-- A dictionary assignment preserves distinctness of the keys. -/
theorem keys_nodup_dict_insert {α β : Type} [DecidableEq α] (d : List (α × β)) (k : α) (v : β)
    (h : (d.map Prod.fst).Nodup) : ((dict_insert d k v).map Prod.fst).Nodup := by
  induction d with
  | nil => simp [dict_insert]
  | cons kv rest ih =>
    rw [List.map_cons, List.nodup_cons] at h
    by_cases hk : kv.1 = k
    · simp only [dict_insert, if_pos hk, List.map_cons, List.nodup_cons]
      exact ⟨hk ▸ h.1, h.2⟩
    · simp only [dict_insert, if_neg hk, List.map_cons, List.nodup_cons]
      refine ⟨fun hmem => ?_, ih h.2⟩
      rcases (mem_keys_dict_insert rest k v kv.1).mp hmem with hm | hm
      · exact h.1 hm
      · exact hk hm

/-- A dictionary assignment grows the dictionary exactly when the key is new. -/
theorem keys_toFinset_dict_insert {α β : Type} [DecidableEq α] (d : List (α × β)) (k : α)
    (v : β) : ((dict_insert d k v).map Prod.fst).toFinset =
      insert k (d.map Prod.fst).toFinset := by
  ext x
  rw [List.mem_toFinset, Finset.mem_insert, List.mem_toFinset, mem_keys_dict_insert]
  tauto

/-- The recursive form agrees with the `enumerate`-driven fold of the source. -/
theorem enumFrom_foldl_mmd_go {α : Type} [DecidableEq α] :
    ∀ (l : List α) (d : List (α × ℕ)) (n : ℕ),
      (List.enumFrom n l).foldl (fun d im => dict_insert d im.2 im.1) d = mmd_go d n l := by
  intro l
  induction l with
  | nil => intro d n; rfl
  | cons a l ih =>
    intro d n
    simp only [List.enumFrom, List.foldl_cons]
    exact ih _ _

/-- `make_moment_dic` in recursive form. -/
theorem make_moment_dic_eq_mmd_go {α : Type} [DecidableEq α] (l : List α) :
    make_moment_dic l = mmd_go [] 0 l := by
  rw [make_moment_dic, List.enum, enumFrom_foldl_mmd_go]

/-- Keys accumulated by the moment-dictionary fold. -/
theorem mem_keys_mmd_go {α : Type} [DecidableEq α] :
    ∀ (l : List α) (d : List (α × ℕ)) (n : ℕ) (x : α),
      x ∈ (mmd_go d n l).map Prod.fst ↔ x ∈ d.map Prod.fst ∨ x ∈ l := by
  intro l
  induction l with
  | nil => intro d n x; simp [mmd_go]
  | cons a l ih =>
    intro d n x
    show x ∈ (mmd_go (dict_insert d a n) (n + 1) l).map Prod.fst ↔ _
    rw [ih, mem_keys_dict_insert, List.mem_cons]
    tauto

/-- The moment-dictionary fold keeps the keys distinct. -/
theorem keys_nodup_mmd_go {α : Type} [DecidableEq α] :
    ∀ (l : List α) (d : List (α × ℕ)) (n : ℕ), (d.map Prod.fst).Nodup →
      ((mmd_go d n l).map Prod.fst).Nodup := by
  intro l
  induction l with
  | nil => intro d n h; exact h
  | cons a l ih =>
    intro d n h
    exact ih _ _ (keys_nodup_dict_insert d a n h)

/-- Size of the accumulated dictionary: one entry per distinct key. -/
theorem length_mmd_go {α : Type} [DecidableEq α] :
    ∀ (l : List α) (d : List (α × ℕ)) (n : ℕ), (d.map Prod.fst).Nodup →
      (mmd_go d n l).length = ((d.map Prod.fst).toFinset ∪ l.toFinset).card := by
  intro l
  induction l with
  | nil =>
    intro d n h
    rw [List.toFinset_nil, Finset.union_empty, List.card_toFinset,
      List.dedup_eq_self.mpr h, List.length_map]
    rfl
  | cons a l ih =>
    intro d n h
    show (mmd_go (dict_insert d a n) (n + 1) l).length = _
    rw [ih _ _ (keys_nodup_dict_insert d a n h), keys_toFinset_dict_insert,
      List.toFinset_cons]
    congr 1
    ext x
    simp only [Finset.mem_union, Finset.mem_insert]
    tauto

/-- `make_moment_dic` has one entry per distinct moment. -/
theorem length_make_moment_dic {α : Type} [DecidableEq α] (l : List α) :
    (make_moment_dic l).length = l.dedup.length := by
  rw [make_moment_dic_eq_mmd_go, length_mmd_go l [] 0 (by simp), ← List.card_toFinset]
  simp

/-- With duplicates present, deduplication strictly shrinks the list. -/
theorem dedup_length_lt_of_not_nodup {α : Type} [DecidableEq α] (l : List α)
    (h : ¬ l.Nodup) : l.dedup.length < l.length := by
  have hs := List.dedup_sublist l
  rcases lt_or_eq_of_le hs.length_le with h1 | h1
  · exact h1
  · exact absurd (List.dedup_eq_self.mp (hs.eq_of_length h1)) h

/-- Looking up the key just assigned. -/
theorem lookup_dict_insert_self {α : Type} [DecidableEq α] (d : List (α × ℕ)) (k : α)
    (v : ℕ) : (dict_insert d k v).lookup k = some v := by
  induction d with
  | nil => simp [dict_insert, List.lookup]
  | cons kv rest ih =>
    obtain ⟨k1, v1⟩ := kv
    by_cases h : k1 = k
    · simp [dict_insert, if_pos h, List.lookup]
    · have hb : (k == k1) = false := beq_eq_false_iff_ne.mpr fun e => h e.symm
      simp only [dict_insert, if_neg h, List.lookup, hb]
      exact ih

/-- Assignments to other keys do not change a lookup. -/
theorem lookup_dict_insert_ne {α : Type} [DecidableEq α] (d : List (α × ℕ)) (k : α) (v : ℕ)
    (x : α) (hx : x ≠ k) : (dict_insert d k v).lookup x = d.lookup x := by
  induction d with
  | nil => simp [dict_insert, List.lookup, beq_eq_false_iff_ne.mpr hx]
  | cons kv rest ih =>
    obtain ⟨k1, v1⟩ := kv
    by_cases h : k1 = k
    · subst h
      simp only [dict_insert, if_pos rfl, List.lookup, beq_eq_false_iff_ne.mpr hx]
    · simp only [dict_insert, if_neg h, List.lookup]
      cases hxk : x == k1 with
      | true => rfl
      | false => exact ih

/-- Keys not occurring in the remaining moments keep their binding through the fold. -/
theorem lookup_mmd_go_of_not_mem {α : Type} [DecidableEq α] :
    ∀ (l : List α) (d : List (α × ℕ)) (n : ℕ) (x : α), x ∉ l →
      (mmd_go d n l).lookup x = d.lookup x := by
  intro l
  induction l with
  | nil => intro d n x _; rfl
  | cons a l ih =>
    intro d n x hx
    rw [List.mem_cons, not_or] at hx
    show (mmd_go (dict_insert d a n) (n + 1) l).lookup x = _
    rw [ih _ _ _ hx.2, lookup_dict_insert_ne d a n x hx.1]

/-- On a duplicate-free list the fold maps the i-th element to index `n + i`. -/
theorem lookup_mmd_go_nodup {α : Type} [DecidableEq α] :
    ∀ (l : List α) (d : List (α × ℕ)) (n : ℕ) (i : ℕ) (hi : i < l.length), l.Nodup →
      (mmd_go d n l).lookup (l.get ⟨i, hi⟩) = some (n + i) := by
  intro l
  induction l with
  | nil =>
    intro d n i hi
    exact absurd hi (by simp)
  | cons a l ih =>
    intro d n i hi hnd
    rw [List.nodup_cons] at hnd
    match i with
    | 0 =>
      show (mmd_go (dict_insert d a n) (n + 1) l).lookup a = some (n + 0)
      rw [lookup_mmd_go_of_not_mem l _ _ a hnd.1, lookup_dict_insert_self]
      rfl
    | Nat.succ i =>
      show (mmd_go (dict_insert d a n) (n + 1) l).lookup (l.get ⟨i, _⟩) = some (n + (i + 1))
      rw [ih _ (n + 1) i _ hnd.2]
      congr 1
      omega

/-- C10 (amended): with the left- and right-hand sides matching the moments list in
length, construction fails whenever two moments are equal (the dictionary is keyed by tuple
value, so duplicates collapse and the mapping-count check cannot be satisfied) - not with a
count-carrying `ValueError` but with the `TypeError` raised while formatting the
moment-count message, which names neither count - and succeeds exactly when the moments are
pairwise distinct, in which case the mapping sends the i-th moment to index `i`. -/
theorem ODEProblem_construct_duplicate_moments {E α : Type} [DecidableEq α]
    (lhs rhs constants : List E) (moments : List α)
    (h1 : lhs.length = rhs.length) (h2 : lhs.length = moments.length) :
    (¬ moments.Nodup →
      ODEProblem_construct lhs rhs constants moments =
        Except.error ValidationError.notEnoughFormatArgs) ∧
    (moments.Nodup →
      ODEProblem_construct lhs rhs constants moments =
        Except.ok ⟨lhs, rhs, constants, make_moment_dic moments⟩ ∧
      ∀ i (hi : i < moments.length),
        (make_moment_dic moments).lookup (moments.get ⟨i, hi⟩) = some i) := by
  constructor
  · intro hnd
    have hlen : (make_moment_dic moments).length < moments.length := by
      rw [length_make_moment_dic]
      exact dedup_length_lt_of_not_nodup _ hnd
    simp only [ODEProblem_construct]
    rw [if_neg (by omega), if_pos (by omega)]
  · intro hnd
    have hlen : (make_moment_dic moments).length = moments.length := by
      rw [length_make_moment_dic, List.dedup_eq_self.mpr hnd]
    constructor
    · simp only [ODEProblem_construct]
      rw [if_neg (by omega), if_neg (by omega)]
    · intro i hi
      rw [make_moment_dic_eq_mmd_go]
      have h := lookup_mmd_go_nodup moments [] 0 i hi hnd
      simpa using h

/-- C10 witness: a concrete duplicate-free two-moment problem is accepted and its second
moment is mapped to index 1. -/
theorem ODEProblem_construct_duplicate_moments_witness :
    ODEProblem_construct ([10, 20] : List ℕ) [30, 40] [] ([[0], [1]] : List (List ℕ)) =
      Except.ok ⟨[10, 20], [30, 40], [], make_moment_dic [[0], [1]]⟩ ∧
    @List.lookup (List ℕ) ℕ instBEqOfDecidableEq [1] (make_moment_dic [[0], [1]]) = some 1 :=
  ⟨((ODEProblem_construct_duplicate_moments [10, 20] [30, 40] [] [[0], [1]]
      (by decide) (by decide)).2 (by decide)).1,
   ((ODEProblem_construct_duplicate_moments [10, 20] [30, 40] [] [[0], [1]]
      (by decide) (by decide)).2 (by decide)).2 1 (by decide)⟩

/-- C10 counterexample: a length-matched problem whose moments list holds the same tuple
twice is rejected not with a validation error carrying the collapsed mapping count, but
with the `TypeError` thrown while formatting the moment-count message - an exception that
names no counts. -/
theorem ODEProblem_construct_duplicate_moments_formatting_failure :
    ODEProblem_construct ([1, 2] : List ℕ) [3, 4] [] ([[5], [5]] : List (List ℕ)) =
      Except.error ValidationError.notEnoughFormatArgs := rfl

/-- C8 counterexample: a triple with equal-length, non-empty left- and right-hand sides and
a moments list of the same length is rejected when two moment tuples coincide, so
construction does not accept every equal-length non-empty triple. -/
theorem ODEProblem_construct_rejects_equal_length_duplicated_triple :
    ODEProblem_construct ([10, 20] : List ℕ) [30, 40] [] ([[0], [0]] : List (List ℕ)) =
      Except.error ValidationError.notEnoughFormatArgs := rfl

/-- C8 (amended): construction raises the validation error carrying the two mismatched
counts whenever the number of left-hand-side rows differs from the number of
right-hand-side rows; when those agree but differ from the number of entries of the moment
mapping it still fails, but with the `TypeError` raised while formatting the moment-count
message (three conversions for two arguments), an exception naming neither count; and it
accepts every equal-length (LHS, RHS, moments) triple whose moment tuples are pairwise
distinct, returning the problem with its fields unchanged. -/
theorem ODEProblem_construct_validates_counts {E α : Type} [DecidableEq α]
    (lhs rhs constants : List E) (moments : List α) :
    (lhs.length ≠ rhs.length →
      ODEProblem_construct lhs rhs constants moments =
        Except.error (ValidationError.lhsRhsCountMismatch lhs.length rhs.length)) ∧
    (lhs.length = rhs.length → lhs.length ≠ (make_moment_dic moments).length →
      ODEProblem_construct lhs rhs constants moments =
        Except.error ValidationError.notEnoughFormatArgs) ∧
    (lhs.length = rhs.length → lhs.length = moments.length → moments.Nodup →
      ODEProblem_construct lhs rhs constants moments =
        Except.ok ⟨lhs, rhs, constants, make_moment_dic moments⟩) := by
  refine ⟨fun h => ?_, fun h1 h2 => ?_, fun h1 h2 h3 => ?_⟩
  · simp only [ODEProblem_construct]
    rw [if_pos h]
  · simp only [ODEProblem_construct]
    rw [if_neg (by omega), if_pos h2]
  · have hlen : (make_moment_dic moments).length = moments.length := by
      rw [length_make_moment_dic, List.dedup_eq_self.mpr h3]
    simp only [ODEProblem_construct]
    rw [if_neg (by omega), if_neg (by omega)]

/-- C8 witness: a concrete mismatched pair is rejected with its counts and a concrete
equal-length duplicate-free triple is accepted unchanged. -/
theorem ODEProblem_construct_validates_counts_witness :
    ODEProblem_construct ([10] : List ℕ) ([] : List ℕ) [] ([[0]] : List (List ℕ)) =
      Except.error (ValidationError.lhsRhsCountMismatch 1 0) ∧
    ODEProblem_construct ([10] : List ℕ) [30] [] ([[0]] : List (List ℕ)) =
      Except.ok ⟨[10], [30], [], make_moment_dic [[0]]⟩ :=
  ⟨(ODEProblem_construct_validates_counts [10] [] [] [[0]]).1 (by decide),
   (ODEProblem_construct_validates_counts [10] [30] [] [[0]]).2.2
     (by decide) (by decide) (by decide)⟩

/-- Folding symbolic multiplication evaluates to the product of the values. -/
theorem eval_foldl_mul :
    ∀ (l : List Expr) (a : Expr) (v p : ℕ → ℚ),
      Expr.eval v p (l.foldl Expr.mul a) = Expr.eval v p a * (l.map (Expr.eval v p)).prod := by
  intro l
  induction l with
  | nil => intro a v p; simp
  | cons b l ih =>
    intro a v p
    rw [List.foldl_cons, ih, List.map_cons, List.prod_cons]
    show Expr.eval v p a * Expr.eval v p b * _ = _
    ring

/-- On a non-empty list, Python's `reduce(mul, l)` evaluates to the product of the values. -/
theorem eval_reduceMul_of_ne_nil (l : List Expr) (hl : l ≠ []) (v p : ℕ → ℚ) :
    Expr.eval v p (reduceMul l) = (l.map (Expr.eval v p)).prod := by
  match l, hl with
  | x :: xs, _ =>
    show Expr.eval v p (xs.foldl Expr.mul x) = _
    rw [eval_foldl_mul, List.map_cons, List.prod_cons]

/-- Mapping over `enumerate` is mapping over the indices. -/
theorem enumFrom_map_eq_range_map {α β : Type} (d : α) :
    ∀ (l : List α) (n : ℕ) (f : ℕ × α → β),
      (List.enumFrom n l).map f = (List.range l.length).map fun i => f (n + i, l.getD i d) := by
  intro l
  induction l with
  | nil => intro n f; rfl
  | cons a l ih =>
    intro n f
    show f (n, a) :: (List.enumFrom (n + 1) l).map f = _
    rw [ih, List.length_cons, List.range_succ_eq_map, List.map_cons, List.map_map]
    congr 1
    refine List.map_congr_left fun i _ => ?_
    show f (n + 1 + i, l.getD i d) = f (n + (i + 1), (a :: l).getD (i + 1) d)
    rw [List.getD_cons_succ, Nat.add_assoc, Nat.add_comm 1 i]

/-- `enumerate` from zero. -/
theorem enum_map_eq_range_map {α β : Type} (d : α) (l : List α) (f : ℕ × α → β) :
    l.enum.map f = (List.range l.length).map fun i => f (i, l.getD i d) := by
  rw [List.enum, enumFrom_map_eq_range_map d]
  exact List.map_congr_left fun i _ => by rw [Nat.zero_add]

/-- An entry of a mapped list through `getD`, under the length bound. -/
theorem getD_map_lt {α β : Type} (f : α → β) (l : List α) (j : ℕ) (h : j < l.length)
    (d : β) (d0 : α) : (l.map f).getD j d = f (l.getD j d0) := by
  rw [List.getD_eq_getElem (l.map f) d (by simpa using h), List.getElem_map,
    List.getD_eq_getElem l d0 h]

/-- `make_f_expectation` as a single map over the counter. -/
theorem make_f_expectation_eq_map (vars : List ℕ) (expr : Expr) (counter : List (List ℕ)) :
    make_f_expectation vars expr counter = counter.map fun c =>
      Expr.mul (derive_expr_from_counter_entry expr vars c) (get_factorial_term c) := by
  show List.zipWith _ (counter.map _) (counter.map _) = _
  rw [List.zipWith_map, List.zipWith_same]

/-- `make_f_expectation` has one row per counter entry. -/
theorem make_f_expectation_length (vars : List ℕ) (expr : Expr) (counter : List (List ℕ)) :
    (make_f_expectation vars expr counter).length = counter.length := by
  rw [make_f_expectation_eq_map, List.length_map]

/-- C2: at every valuation, `make_f_of_x` is the product of the species powers
`x_i ^ (k_i - e_i)` times the propensity; `make_s_pow_e` is the product of the
stoichiometry powers `S[i, reaction] ^ e_i`; `make_k_chose_e` is the product of the
binomial quotients `k_i! / (e_i! (k_i - e_i)!)`; and `make_f_expectation` is the column
vector with one row per counter entry `c`, the mixed partial derivative according to `c`
divided by the factorial product of the entries of `c`. -/
theorem mea_term_constructors (v p : ℕ → ℚ) (vars k_vec e_vec : List ℕ) (reaction : Expr)
    (S : ℕ → ℕ → ℤ) (reac_idx : ℕ) (expr : Expr) (counter : List (List ℕ))
    (hv : vars ≠ []) (he : e_vec ≠ []) (hknil : k_vec ≠ [])
    (hek : ∀ ek ∈ e_vec.zip k_vec, ek.1 ≤ ek.2) :
    (Expr.eval v p (make_f_of_x vars k_vec e_vec reaction) =
      ((List.range vars.length).map fun i =>
        v (vars.getD i 0) ^ ((k_vec.getD i 0 : ℤ) - (e_vec.getD i 0 : ℤ))).prod *
      Expr.eval v p reaction) ∧
    (Expr.eval v p (make_s_pow_e S reac_idx e_vec) =
      ((List.range e_vec.length).map fun i =>
        ((S i reac_idx : ℤ) : ℚ) ^ (e_vec.getD i 0 : ℤ)).prod) ∧
    (Expr.eval v p (make_k_chose_e e_vec k_vec) =
      ((e_vec.zip k_vec).map fun ek =>
        (Nat.factorial ek.2 : ℚ) /
          ((Nat.factorial ek.1 : ℚ) * (Nat.factorial (ek.2 - ek.1) : ℚ))).prod) ∧
    ((make_f_expectation vars expr counter).length = counter.length ∧
      ∀ j, j < counter.length →
        Expr.eval v p ((make_f_expectation vars expr counter).getD j (Expr.num 0)) =
          Expr.eval v p (derive_expr_from_counter_entry expr vars (counter.getD j [])) /
            (((counter.getD j []).map Nat.factorial).prod : ℚ)) := by
  have hvlen : vars.length ≠ 0 := fun h0 => hv (List.length_eq_zero.mp h0)
  have helen : e_vec.length ≠ 0 := fun h0 => he (List.length_eq_zero.mp h0)
  refine ⟨?_, ?_, ?_, make_f_expectation_length vars expr counter, ?_⟩
  · simp only [make_f_of_x]
    rw [enum_map_eq_range_map 0 vars]
    show Expr.eval v p (reduceMul _) * Expr.eval v p reaction = _
    rw [eval_reduceMul_of_ne_nil _ (by
        intro hmap
        exact hvlen (by simpa using congrArg List.length hmap)) v p,
      List.map_map]
    rfl
  · simp only [make_s_pow_e]
    rw [enum_map_eq_range_map 0 e_vec]
    rw [eval_reduceMul_of_ne_nil _ (by
        intro hmap
        exact helen (by simpa using congrArg List.length hmap)) v p,
      List.map_map]
    rfl
  · have hzip : e_vec.zip k_vec ≠ [] := by
      match e_vec, k_vec, he, hknil with
      | a :: as, b :: bs, _, _ => simp
    rw [make_k_chose_e, eval_reduceMul_of_ne_nil _
        (fun hmap => hzip (List.map_eq_nil_iff.mp hmap)) v p,
      List.map_map]
    refine congrArg List.prod (List.map_congr_left fun ek hmem => ?_)
    show binomial_factor ek.1 ek.2 = _
    rw [binomial_factor, if_pos (hek ek hmem)]
  · intro j hj
    rw [make_f_expectation_eq_map, getD_map_lt _ _ j hj (Expr.num 0) []]
    show Expr.eval v p (derive_expr_from_counter_entry expr vars (counter.getD j [])) *
      (1 / (((counter.getD j []).map Nat.factorial).prod : ℚ)) = _
    rw [mul_one_div]

/-- C2 witness: the four constructors evaluated at a concrete one-species instance
(`vars = [0]`, `k = e = [1]`, propensity `c_0`, stoichiometry entry `-2`,
`expr = y_0 * y_0`, counter `[[0], [1]]`, valuation `y = 3`, `c = 5`). -/
theorem mea_term_constructors_witness :
    Expr.eval (fun _ => 3) (fun _ => 5) (make_f_of_x [0] [1] [1] (Expr.param 0)) = 5 ∧
    Expr.eval (fun _ => 3) (fun _ => 5) (make_s_pow_e (fun _ _ => -2) 0 [1]) = -2 ∧
    Expr.eval (fun _ => 3) (fun _ => 5) (make_k_chose_e [1] [1]) = 1 ∧
    (make_f_expectation [0] (Expr.mul (Expr.var 0) (Expr.var 0)) [[0], [1]]).length = 2 ∧
    Expr.eval (fun _ => 3) (fun _ => 5)
      ((make_f_expectation [0] (Expr.mul (Expr.var 0) (Expr.var 0)) [[0], [1]]).getD 1
        (Expr.num 0)) = 6 := by
  obtain ⟨h1, h2, h3, h4, h5⟩ := mea_term_constructors (fun _ => 3) (fun _ => 5) [0] [1] [1]
    (Expr.param 0) (fun _ _ => -2) 0 (Expr.mul (Expr.var 0) (Expr.var 0)) [[0], [1]]
    (by decide) (by decide) (by decide) (by decide)
  refine ⟨?_, ?_, ?_, h4, ?_⟩
  · rw [h1]
    simp [Expr.eval]
  · rw [h2]
    simp [List.range_succ]
  · rw [h3]
    norm_num [Nat.factorial]
  · rw [h5 1 (by decide)]
    simp [derive_expr_from_counter_entry, iterDeriv, Expr.deriv, Expr.eval, Nat.factorial]
    norm_num

/-- Pointwise-equal block functions give equal flattened lists. -/
theorem flatMap_congr {α β : Type} {l : List α} {f g : α → List β}
    (h : ∀ a ∈ l, f a = g a) : l.flatMap f = l.flatMap g := by
  induction l with
  | nil => rfl
  | cons a l ih =>
    rw [List.flatMap_cons, List.flatMap_cons, h a (by simp),
      ih fun x hx => h x (by simp [hx])]

/-- `headD` of a non-empty list is its head. -/
theorem headD_of_ne_nil {α : Type} (l : List α) (h : l ≠ []) (d : α) :
    l.headD d = l.head h := by
  cases l with
  | nil => exact absurd rfl h
  | cons a t => rfl

/-- The ternary zip distributes over appending blocks of equal lengths. -/
theorem zip3With_append {α β γ δ : Type} (g : α → β → γ → δ) :
    ∀ (a : List α) (b : List β) (c : List γ) (a2 : List α) (b2 : List β) (c2 : List γ),
      a.length = b.length → a.length = c.length →
      zip3With g (a ++ a2) (b ++ b2) (c ++ c2) =
        zip3With g a b c ++ zip3With g a2 b2 c2 := by
  intro a
  induction a with
  | nil =>
    intro b c a2 b2 c2 hb hc
    match b, c, hb, hc with
    | [], [], _, _ => rfl
  | cons x a ih =>
    intro b c a2 b2 c2 hb hc
    match b, c, hb, hc with
    | y :: b, z :: c, hb, hc =>
      show g x y z :: zip3With g (a ++ a2) (b ++ b2) (c ++ c2) = _
      rw [ih b c a2 b2 c2 (by simpa using hb) (by simpa using hc)]
      rfl

/-- The ternary zip of three maps of one list is a single map. -/
theorem zip3With_map_same {ε β γ δ ω : Type} (g : β → γ → δ → ω) (p : ε → β) (q : ε → γ)
    (r : ε → δ) : ∀ ek : List ε,
      zip3With g (ek.map p) (ek.map q) (ek.map r) = ek.map fun e => g (p e) (q e) (r e) := by
  intro ek
  induction ek with
  | nil => rfl
  | cons e ek ih =>
    show g (p e) (q e) (r e) :: zip3With g (ek.map p) (ek.map q) (ek.map r) = _
    rw [ih]
    rfl

/-- The ternary zip of three block-structured lists over the same outer list and the same
inner list zips blockwise. -/
theorem zip3With_flatMap {α ε β γ δ ω : Type} (g : β → γ → δ → ω) (ek : List ε)
    (p : α → ε → β) (q : α → ε → γ) (r : α → ε → δ) :
    ∀ xs : List α,
      zip3With g (xs.flatMap fun x => ek.map (p x)) (xs.flatMap fun x => ek.map (q x))
        (xs.flatMap fun x => ek.map (r x)) =
      xs.flatMap fun x => ek.map fun e => g (p x e) (q x e) (r x e) := by
  intro xs
  induction xs with
  | nil => rfl
  | cons x xs ih =>
    rw [List.flatMap_cons, List.flatMap_cons, List.flatMap_cons, List.flatMap_cons,
      zip3With_append g _ _ _ _ _ _ (by simp) (by simp), ih, zip3With_map_same]

/-- Every list is the list of its entries at the indices below its length. -/
theorem range_map_getD {α : Type} : ∀ (l : List α) (d : α),
    (List.range l.length).map (fun i => l.getD i d) = l := by
  intro l
  induction l with
  | nil => intro d; rfl
  | cons a t ih =>
    intro d
    rw [List.length_cons, List.range_succ_eq_map, List.map_cons, List.map_map]
    congr 1
    rw [show ((fun i => (a :: t).getD i d) ∘ Nat.succ) = fun i => t.getD i d from rfl]
    exact ih d

/-- A flattened traversal of a list is the traversal of its indices. -/
theorem flatMap_eq_range {α β : Type} (l : List α) (d : α) (F : α → List β) :
    l.flatMap F = (List.range l.length).flatMap fun i => F (l.getD i d) := by
  conv_lhs => rw [← range_map_getD l d]
  rw [List.flatMap_map]

/-- C1: `eq_mixedmoments` returns a row vector with exactly one entry per counter index,
and the entry for counter index `j` is the sum, over all pairs of a reaction index and an
e-vector (in `itertools.product` order), of the product of the three factors: the
`j`-th Taylor-expectation entry of the shifted propensity `make_f_of_x`, the stoichiometry
power `make_s_pow_e`, and the binomial coefficient `make_k_chose_e`. -/
theorem eq_mixedmoments_row (amat : List Expr) (counter : List (List ℕ)) (S : ℕ → ℕ → ℤ)
    (ymat kvec : List ℕ) (ekcounter : List (List ℕ))
    (hy : ymat ≠ []) (ha : amat ≠ []) (hek : ekcounter ≠ [])
    (hee : ∀ e ∈ ekcounter, e ≠ []) :
    (eq_mixedmoments amat counter S ymat kvec ekcounter).length = counter.length ∧
    ∀ j, j < counter.length →
      (eq_mixedmoments amat counter S ymat kvec ekcounter).getD j (Expr.num 0) =
        reduceAdd ((listProd (List.range amat.length) ekcounter).map fun re =>
          Expr.mul (Expr.mul
            ((make_f_expectation ymat
                (make_f_of_x ymat kvec re.2 (amat.getD re.1 (Expr.num 0))) counter).getD j
              (Expr.num 0))
            (make_s_pow_e S re.1 re.2))
            (make_k_chose_e re.2 kvec)) := by
  have h1 : ((listProd amat ekcounter).map fun rc =>
        make_f_of_x ymat kvec rc.2 rc.1).map (fun f => make_f_expectation ymat f counter) =
      (List.range amat.length).flatMap fun i => ekcounter.map fun e =>
        make_f_expectation ymat (make_f_of_x ymat kvec e (amat.getD i (Expr.num 0)))
          counter := by
    rw [List.map_map, listProd, List.map_flatMap, flatMap_eq_range amat (Expr.num 0)]
    refine flatMap_congr fun i _ => ?_
    rw [List.map_map]
    rfl
  have h2 : (listProd (List.range amat.length) ekcounter).map
        (fun rc => make_s_pow_e S rc.1 rc.2) =
      (List.range amat.length).flatMap fun i => ekcounter.map fun e =>
        make_s_pow_e S i e := by
    rw [listProd, List.map_flatMap]
    refine flatMap_congr fun i _ => ?_
    rw [List.map_map]
    rfl
  have hprod : zip3With (fun f s ke => f.map fun x => Expr.mul (Expr.mul x s) ke)
        (((listProd amat ekcounter).map fun rc => make_f_of_x ymat kvec rc.2 rc.1).map
          fun f => make_f_expectation ymat f counter)
        ((listProd (List.range amat.length) ekcounter).map fun rc =>
          make_s_pow_e S rc.1 rc.2)
        ((List.range amat.length).flatMap fun _ =>
          ekcounter.map fun e => make_k_chose_e e kvec) =
      (List.range amat.length).flatMap fun i => ekcounter.map fun e =>
        (make_f_expectation ymat (make_f_of_x ymat kvec e (amat.getD i (Expr.num 0)))
          counter).map fun x =>
          Expr.mul (Expr.mul x (make_s_pow_e S i e)) (make_k_chose_e e kvec) := by
    rw [h1, h2]
    exact zip3With_flatMap _ ekcounter _ _ _ (List.range amat.length)
  have hPne : ((List.range amat.length).flatMap fun i => ekcounter.map fun e =>
      (make_f_expectation ymat (make_f_of_x ymat kvec e (amat.getD i (Expr.num 0)))
        counter).map fun x =>
        Expr.mul (Expr.mul x (make_s_pow_e S i e)) (make_k_chose_e e kvec)) ≠ [] := by
    have h0 : (0 : ℕ) ∈ List.range amat.length := by
      rw [List.mem_range]
      exact List.length_pos.mpr ha
    obtain ⟨e0, he0⟩ := List.exists_mem_of_ne_nil ekcounter hek
    exact List.ne_nil_of_mem (List.mem_flatMap.mpr ⟨0, h0, List.mem_map_of_mem _ he0⟩)
  have hrowlen : ∀ r ∈ (List.range amat.length).flatMap fun i => ekcounter.map fun e =>
      (make_f_expectation ymat (make_f_of_x ymat kvec e (amat.getD i (Expr.num 0)))
        counter).map fun x =>
        Expr.mul (Expr.mul x (make_s_pow_e S i e)) (make_k_chose_e e kvec),
      r.length = counter.length := by
    intro r hr
    obtain ⟨i, hi, hr2⟩ := List.mem_flatMap.mp hr
    obtain ⟨e, hemem, rfl⟩ := List.mem_map.mp hr2
    rw [List.length_map, make_f_expectation_length]
  have hheadlen : ((((List.range amat.length).flatMap fun i => ekcounter.map fun e =>
      (make_f_expectation ymat (make_f_of_x ymat kvec e (amat.getD i (Expr.num 0)))
        counter).map fun x =>
        Expr.mul (Expr.mul x (make_s_pow_e S i e)) (make_k_chose_e e kvec))).headD
          []).length = counter.length := by
    rw [headD_of_ne_nil _ hPne []]
    exact hrowlen _ (List.head_mem hPne)
  have hform : eq_mixedmoments amat counter S ymat kvec ekcounter =
      (List.range counter.length).map fun j =>
        reduceAdd (((List.range amat.length).flatMap fun i => ekcounter.map fun e =>
          (make_f_expectation ymat (make_f_of_x ymat kvec e (amat.getD i (Expr.num 0)))
            counter).map fun x =>
            Expr.mul (Expr.mul x (make_s_pow_e S i e)) (make_k_chose_e e kvec)).map
          fun row => row.getD j (Expr.num 0)) := by
    simp only [eq_mixedmoments]
    rw [hprod, hheadlen]
  refine ⟨?_, ?_⟩
  · rw [hform, List.length_map, List.length_range]
  · intro j hj
    rw [hform, getD_map_lt _ _ j (by simpa using hj) (Expr.num 0) 0,
      List.getD_eq_getElem _ _ (by simpa using hj), List.getElem_range]
    refine congrArg reduceAdd ?_
    rw [List.map_flatMap, listProd, List.map_flatMap]
    refine flatMap_congr fun i _ => ?_
    rw [List.map_map, List.map_map]
    refine List.map_congr_left fun e _ => ?_
    show ((make_f_expectation ymat (make_f_of_x ymat kvec e (amat.getD i (Expr.num 0)))
        counter).map fun x =>
        Expr.mul (Expr.mul x (make_s_pow_e S i e)) (make_k_chose_e e kvec)).getD j
          (Expr.num 0) = _
    rw [getD_map_lt _ _ j (by rw [make_f_expectation_length]; exact hj) (Expr.num 0)
      (Expr.num 0)]
    rfl

/-- C1 witness: the row shape and the second entry of `eq_mixedmoments` at a concrete
one-species, two-reaction instance. -/
theorem eq_mixedmoments_row_witness :
    (eq_mixedmoments [Expr.param 0, Expr.param 1] [[0], [1]] (fun _ _ => -2) [0] [2]
      [[1], [2]]).length = 2 ∧
    (eq_mixedmoments [Expr.param 0, Expr.param 1] [[0], [1]] (fun _ _ => -2) [0] [2]
        [[1], [2]]).getD 1 (Expr.num 0) =
      reduceAdd ((listProd (List.range 2) [[1], [2]]).map fun re =>
        Expr.mul (Expr.mul
          ((make_f_expectation [0]
              (make_f_of_x [0] [2] re.2 ([Expr.param 0, Expr.param 1].getD re.1
                (Expr.num 0))) [[0], [1]]).getD 1 (Expr.num 0))
          (make_s_pow_e (fun _ _ => -2) re.1 re.2))
          (make_k_chose_e re.2 [2])) :=
  ⟨(eq_mixedmoments_row [Expr.param 0, Expr.param 1] [[0], [1]] (fun _ _ => -2) [0] [2]
      [[1], [2]] (by decide) (by decide) (by decide) (by decide)).1,
   (eq_mixedmoments_row [Expr.param 0, Expr.param 1] [[0], [1]] (fun _ _ => -2) [0] [2]
      [[1], [2]] (by decide) (by decide) (by decide) (by decide)).2 1 (by decide)⟩

/-- Membership in the `itertools.product` universe: tuples of the right length with
entries below the bound. -/
theorem ituples_mem : ∀ (n k : ℕ) (t : List ℕ),
    t ∈ ituples k n ↔ t.length = n ∧ ∀ x ∈ t, x < k := by
  intro n
  induction n with
  | zero =>
    intro k t
    constructor
    · intro ht
      rw [show ituples k 0 = [[]] from rfl, List.mem_singleton] at ht
      subst ht
      exact ⟨rfl, by simp⟩
    · intro ⟨hlen, _⟩
      rw [List.length_eq_zero] at hlen
      subst hlen
      exact List.mem_singleton.mpr rfl
  | succ n ih =>
    intro k t
    show t ∈ (List.range k).flatMap _ ↔ _
    rw [List.mem_flatMap]
    constructor
    · rintro ⟨d, hd, ht⟩
      obtain ⟨s, hs, rfl⟩ := List.mem_map.mp ht
      obtain ⟨hslen, hsbound⟩ := (ih k s).mp hs
      refine ⟨by simp [hslen], fun x hx => ?_⟩
      rcases List.mem_cons.mp hx with rfl | hx
      · exact List.mem_range.mp hd
      · exact hsbound x hx
    · rintro ⟨hlen, hbound⟩
      match t, hlen with
      | d :: s, hlen =>
        refine ⟨d, List.mem_range.mpr (hbound d (by simp)), ?_⟩
        refine List.mem_map.mpr ⟨s, (ih k s).mpr ⟨by simpa using hlen,
          fun x hx => hbound x (by simp [hx])⟩, rfl⟩

/-- The `itertools.product` universe lists each tuple once. -/
theorem ituples_nodup : ∀ (n k : ℕ), (ituples k n).Nodup := by
  intro n
  induction n with
  | zero => intro k; simp [show ituples k 0 = [[]] from rfl]
  | succ n ih =>
    intro k
    show ((List.range k).flatMap _).Nodup
    rw [List.nodup_flatMap]
    constructor
    · intro d _
      exact (ih k).map fun a b h => by injection h
    · refine (List.pairwise_lt_range k).imp ?_
      intro d d2 hlt x hx hx2
      obtain ⟨s, _, rfl⟩ := List.mem_map.mp hx
      obtain ⟨s2, _, he⟩ := List.mem_map.mp hx2
      injection he.symm with h1 h2
      omega

/-- A flattened list is pairwise-related when each block is and all cross-block pairs
are. -/
theorem pairwise_flatMap_of {α β : Type} (R : β → β → Prop) (f : α → List β) (l : List α)
    (h1 : ∀ a ∈ l, List.Pairwise R (f a))
    (h2 : List.Pairwise (fun a b => ∀ x ∈ f a, ∀ y ∈ f b, R x y) l) :
    List.Pairwise R (l.flatMap f) := by
  induction l with
  | nil => exact List.Pairwise.nil
  | cons a l ih =>
    rw [List.flatMap_cons, List.pairwise_append]
    obtain ⟨hcross, htail⟩ := List.pairwise_cons.mp h2
    refine ⟨h1 a (by simp), ih (fun x hx => h1 x (by simp [hx])) htail, ?_⟩
    intro x hx y hy
    obtain ⟨b, hb, hyb⟩ := List.mem_flatMap.mp hy
    exact hcross b hb x hx y hyb

/-- The `itertools.product` universe is lexicographically strictly increasing. -/
theorem ituples_pairwise_lex : ∀ (n k : ℕ),
    List.Pairwise (List.Lex (· < ·)) (ituples k n) := by
  intro n
  induction n with
  | zero => intro k; simp [show ituples k 0 = [[]] from rfl]
  | succ n ih =>
    intro k
    show List.Pairwise _ ((List.range k).flatMap _)
    refine pairwise_flatMap_of _ _ _ (fun d _ => ?_) ?_
    · exact List.pairwise_map.mpr ((ih k).imp fun h => List.Lex.cons h)
    · refine (List.pairwise_lt_range k).imp ?_
      intro d d2 hlt x hx y hy
      obtain ⟨s, _, rfl⟩ := List.mem_map.mp hx
      obtain ⟨s2, _, rfl⟩ := List.mem_map.mp hy
      exact List.Lex.rel hlt

/-- Hockey-stick identity in the form the descriptor count needs. -/
theorem sum_range_choose_sub : ∀ (M n : ℕ),
    (((List.range (M + 1)).map fun d => Nat.choose (M - d + n) n).sum) =
      Nat.choose (M + n + 1) (n + 1) := by
  intro M
  induction M with
  | zero =>
    intro n
    simp [Nat.choose_self, Nat.choose_succ_self_right]
  | succ M ih =>
    intro n
    rw [List.range_succ_eq_map, List.map_cons, List.map_map, List.sum_cons]
    have hshift : ((List.range (M + 1)).map
          ((fun d => Nat.choose (M + 1 - d + n) n) ∘ Nat.succ)).sum =
        ((List.range (M + 1)).map fun d => Nat.choose (M - d + n) n).sum := by
      refine congrArg List.sum (List.map_congr_left fun d _ => ?_)
      show Nat.choose (M + 1 - (d + 1) + n) n = _
      congr 2
      omega
    rw [hshift, ih n, Nat.sub_zero]
    have h1 : M + 1 + n = M + n + 1 := by omega
    rw [h1]
    exact (Nat.choose_succ_succ (M + n + 1) n).symm

/-- Auxiliary: a constantly-empty flattening is empty. -/
theorem flatMap_const_nil {α β : Type} : ∀ l : List α,
    (l.flatMap fun _ => ([] : List β)) = [] := by
  intro l
  induction l with
  | nil => rfl
  | cons a l ih => rw [List.flatMap_cons, List.nil_append, ih]

/-- The number of tuples of the product universe with sum at most `M` is the number of
multi-indices of degree at most `M`, `C(M + n, n)`, whenever the entry bound exceeds
`M`. -/
theorem filter_ituples_length : ∀ (n K M : ℕ), M < K →
    (((ituples K n).filter fun t => decide (t.sum ≤ M)).length) = Nat.choose (M + n) n := by
  intro n
  induction n with
  | zero =>
    intro K M _
    simp [show ituples K 0 = [[]] from rfl]
  | succ n ih =>
    intro K M hMK
    show ((((List.range K).flatMap fun d => (ituples K n).map fun t => d :: t).filter
      fun t => decide (t.sum ≤ M)).length) = _
    rw [List.filter_flatMap, List.length_flatMap]
    have hblock : ∀ d, (List.length ∘ fun d =>
          ((ituples K n).map fun t => d :: t).filter fun t => decide (t.sum ≤ M)) d =
        if d ≤ M then Nat.choose (M - d + n) n else 0 := by
      intro d
      show (((ituples K n).map fun t => d :: t).filter fun t => decide (t.sum ≤ M)).length = _
      rw [List.filter_map, List.length_map]
      by_cases hd : d ≤ M
      · rw [if_pos hd]
        have hcg : (ituples K n).filter ((fun t => decide (t.sum ≤ M)) ∘ fun t => d :: t) =
            (ituples K n).filter fun t => decide (t.sum ≤ M - d) := by
          refine List.filter_congr fun t _ => ?_
          show decide ((d :: t).sum ≤ M) = _
          simp only [List.sum_cons, decide_eq_decide]
          omega
        rw [hcg, ih K (M - d) (by omega)]
      · rw [if_neg hd]
        rw [List.length_eq_zero, List.filter_eq_nil_iff]
        intro t _
        show ¬ decide ((d :: t).sum ≤ M) = true
        simp only [List.sum_cons, decide_eq_true_eq]
        omega
    rw [List.map_congr_left fun d _ => hblock d]
    have hKsplit : K = (M + 1) + (K - (M + 1)) := by omega
    rw [hKsplit, List.range_add, List.map_append, List.sum_append]
    have hleft : ((List.range (M + 1)).map fun d =>
          if d ≤ M then Nat.choose (M - d + n) n else 0).sum =
        ((List.range (M + 1)).map fun d => Nat.choose (M - d + n) n).sum := by
      refine congrArg List.sum (List.map_congr_left fun d hd => ?_)
      rw [if_pos (by have := List.mem_range.mp hd; omega)]
    have hright : (((List.range (K - (M + 1))).map fun j => M + 1 + j).map fun d =>
          if d ≤ M then Nat.choose (M - d + n) n else 0).sum = 0 := by
      refine List.sum_eq_zero fun x hx => ?_
      obtain ⟨y, hy, rfl⟩ := List.mem_map.mp hx
      obtain ⟨j, _, rfl⟩ := List.mem_map.mp hy
      rw [if_neg (by omega)]
    rw [hleft, hright, sum_range_choose_sub, Nat.add_zero]
    rfl

/-- Only the zero tuple has sum zero, and the universe lists it first. -/
theorem filter_sum_eq_zero : ∀ (n m : ℕ),
    (ituples (m + 1) n).filter (fun t => decide (t.sum = 0)) = [List.replicate n 0] := by
  intro n
  induction n with
  | zero => intro m; rfl
  | succ n ih =>
    intro m
    show ((List.range (m + 1)).flatMap fun d => (ituples (m + 1) n).map fun t =>
      d :: t).filter (fun t => decide (t.sum = 0)) = _
    rw [List.filter_flatMap, List.range_succ_eq_map, List.flatMap_cons]
    have hhead : ((ituples (m + 1) n).map fun t => (0 : ℕ) :: t).filter
        (fun t => decide (t.sum = 0)) = [List.replicate (n + 1) 0] := by
      rw [List.filter_map]
      have hcg : (ituples (m + 1) n).filter ((fun t => decide (t.sum = 0)) ∘ fun t =>
          (0 : ℕ) :: t) = (ituples (m + 1) n).filter fun t => decide (t.sum = 0) := by
        refine List.filter_congr fun t _ => ?_
        show decide (((0 : ℕ) :: t).sum = 0) = _
        simp
      rw [hcg, ih m]
      rfl
    have htail : ((List.range m).map Nat.succ).flatMap (fun d =>
        ((ituples (m + 1) n).map fun t => d :: t).filter fun t => decide (t.sum = 0)) =
        [] := by
      rw [List.flatMap_map]
      have hnil : ∀ d ∈ List.range m,
          ((ituples (m + 1) n).map fun t => Nat.succ d :: t).filter
            (fun t => decide (t.sum = 0)) = [] := by
        intro d _
        rw [List.filter_eq_nil_iff]
        intro t ht
        obtain ⟨s, _, rfl⟩ := List.mem_map.mp ht
        simp
      have hchain : ((List.range m).flatMap fun d =>
          ((ituples (m + 1) n).map fun t => Nat.succ d :: t).filter
            fun t => decide (t.sum = 0)) =
          (List.range m).flatMap fun _ => ([] : List (List ℕ)) := flatMap_congr hnil
      rw [hchain, flatMap_const_nil]
    rw [hhead, htail, List.append_nil]

/-- Splitting a filter count along a second predicate. -/
theorem length_filter_split {α : Type} (p q : α → Bool) : ∀ l : List α,
    (l.filter p).length = (l.filter fun a => p a && q a).length +
      (l.filter fun a => p a && !q a).length := by
  intro l
  induction l with
  | nil => rfl
  | cons a l ih =>
    rw [List.filter_cons, List.filter_cons, List.filter_cons]
    cases hp : p a <;> cases hq : q a <;>
      simp [hp, hq, ih] <;> omega

/-- There are exactly `n` unit tuples in the universe once the entry bound is at least
two. -/
theorem filter_sum_eq_one_length (n m : ℕ) :
    ((ituples (m + 2) n).filter fun t => decide (t.sum = 1)).length = n := by
  have hsplit := length_filter_split (fun t : List ℕ => decide (t.sum ≤ 1))
    (fun t => decide (t.sum = 1)) (ituples (m + 2) n)
  have h1 : ((ituples (m + 2) n).filter fun t =>
        decide (t.sum ≤ 1) && decide (t.sum = 1)) =
      (ituples (m + 2) n).filter fun t => decide (t.sum = 1) := by
    refine List.filter_congr fun t _ => ?_
    by_cases h2 : t.sum = 1 <;> simp [h2]
  have h0 : ((ituples (m + 2) n).filter fun t =>
        decide (t.sum ≤ 1) && !decide (t.sum = 1)) =
      (ituples (m + 2) n).filter fun t => decide (t.sum = 0) := by
    refine List.filter_congr fun t _ => ?_
    by_cases ha : t.sum ≤ 1 <;> by_cases hb : t.sum = 1 <;> simp [ha, hb] <;> omega
  have hz : ((ituples (m + 2) n).filter fun t => decide (t.sum = 0)) =
      [List.replicate n 0] := by
    rw [show m + 2 = (m + 1) + 1 from rfl]
    exact filter_sum_eq_zero n (m + 1)
  rw [h1, h0, filter_ituples_length n (m + 2) 1 (by omega), hz] at hsplit
  have hc : Nat.choose (1 + n) n = n + 1 := by
    rw [Nat.add_comm]
    exact Nat.choose_succ_self_right n
  rw [List.length_singleton] at hsplit
  omega

/-- The stable bucketing by sum is a permutation of its input whenever every element's
sum is within the bucket range. -/
theorem sortBySum_perm (b : ℕ) : ∀ l : List (List ℕ),
    (∀ x ∈ l, x.sum ≤ b) → (sortBySum b l).Perm l := by
  intro l
  induction l with
  | nil =>
    intro _
    rw [sortBySum_nil]
  | cons x l ih =>
    intro hb
    have hx : x.sum ∈ List.range (b + 1) := by
      rw [List.mem_range]
      have := hb x (by simp)
      omega
    obtain ⟨R1, R2, hsplit⟩ := List.append_of_mem hx
    have hnd : (R1 ++ x.sum :: R2).Nodup := by
      rw [← hsplit]
      exact List.nodup_range (b + 1)
    obtain ⟨_, hnd2, hdisj⟩ := List.nodup_append.mp hnd
    have hnotR1 : x.sum ∉ R1 := fun hmem => hdisj hmem (by simp)
    have hnotR2 : x.sum ∉ R2 := (List.nodup_cons.mp hnd2).1
    show ((List.range (b + 1)).flatMap fun s => (x :: l).filter fun t =>
      decide (t.sum = s)).Perm (x :: l)
    rw [hsplit, List.flatMap_append, List.flatMap_cons]
    have hR1 : (R1.flatMap fun s => (x :: l).filter fun t => decide (t.sum = s)) =
        R1.flatMap fun s => l.filter fun t => decide (t.sum = s) := by
      refine flatMap_congr fun s hs => ?_
      rw [List.filter_cons, if_neg (by
        intro hdec
        have he : x.sum = s := by simpa using hdec
        subst he
        exact hnotR1 hs)]
    have hR2 : (R2.flatMap fun s => (x :: l).filter fun t => decide (t.sum = s)) =
        R2.flatMap fun s => l.filter fun t => decide (t.sum = s) := by
      refine flatMap_congr fun s hs => ?_
      rw [List.filter_cons, if_neg (by
        intro hdec
        have he : x.sum = s := by simpa using hdec
        subst he
        exact hnotR2 hs)]
    have hc : ((x :: l).filter fun t => decide (t.sum = x.sum)) =
        x :: l.filter fun t => decide (t.sum = x.sum) := by
      rw [List.filter_cons, if_pos (by simp)]
    rw [hR1, hR2, hc]
    refine List.perm_middle.trans ?_
    have hsort : (sortBySum b l).Perm l := ih fun y hy => hb y (by simp [hy])
    have hEq : sortBySum b l =
        (R1.flatMap fun s => l.filter fun t => decide (t.sum = s)) ++
        ((l.filter fun t => decide (t.sum = x.sum)) ++
         (R2.flatMap fun s => l.filter fun t => decide (t.sum = s))) := by
      show ((List.range (b + 1)).flatMap fun s => l.filter fun t =>
        decide (t.sum = s)) = _
      rw [hsplit, List.flatMap_append, List.flatMap_cons]
    exact (hEq ▸ hsort).cons x

/-- Stable bucketing sorts by sum: the result is pairwise ordered by sum, with the original
relation preserved among elements of equal sum. -/
theorem sortBySum_pairwise (b : ℕ) (l : List (List ℕ)) (R : List ℕ → List ℕ → Prop)
    (hp : List.Pairwise R l) :
    List.Pairwise (fun s t => s.sum < t.sum ∨ (s.sum = t.sum ∧ R s t)) (sortBySum b l) := by
  refine pairwise_flatMap_of _ _ _ (fun s _ => ?_) ?_
  · refine List.Pairwise.imp_of_mem ?_ (hp.filter _)
    intro a c ha hc hR
    have hsa : a.sum = s := by simpa using (List.mem_filter.mp ha).2
    have hsc : c.sum = s := by simpa using (List.mem_filter.mp hc).2
    exact Or.inr ⟨by rw [hsa, hsc], hR⟩
  · refine (List.pairwise_lt_range (b + 1)).imp ?_
    intro s1 s2 hlt x hx y hy
    have hsx : x.sum = s1 := by simpa using (List.mem_filter.mp hx).2
    have hsy : y.sum = s2 := by simpa using (List.mem_filter.mp hy).2
    exact Or.inl (by rw [hsx, hsy]; exact hlt)

/-- The sum of a unit descriptor is one. -/
theorem replicate_set_sum : ∀ (S i : ℕ), i < S → ((List.replicate S 0).set i 1).sum = 1 := by
  intro S
  induction S with
  | zero => intro i h; omega
  | succ S ih =>
    intro i h
    match i with
    | 0 =>
      show ((1 : ℕ) :: List.replicate S 0).sum = 1
      simp
    | Nat.succ i =>
      show ((0 : ℕ) :: (List.replicate S 0).set i 1).sum = 1
      rw [List.sum_cons, ih i (by omega)]

/-- A tuple of natural numbers with sum one is a unit descriptor. -/
theorem sum_eq_one_unit : ∀ (t : List ℕ), t.sum = 1 →
    ∃ i, i < t.length ∧ t = (List.replicate t.length 0).set i 1 := by
  intro t
  induction t with
  | nil => intro h; simp at h
  | cons a t ih =>
    intro h
    rw [List.sum_cons] at h
    rcases Nat.eq_zero_or_pos a with ha | ha
    · subst ha
      obtain ⟨i, hi, ht⟩ := ih (by omega)
      refine ⟨i + 1, by simp [hi], ?_⟩
      rw [List.length_cons, List.replicate_succ, List.set_cons_succ]
      rw [← ht]
    · have ha1 : a = 1 := by omega
      have ht0 : t.sum = 0 := by omega
      have htrep : t = List.replicate t.length 0 := by
        rw [List.eq_replicate]
        exact ⟨rfl, List.sum_eq_zero_iff.mp ht0⟩
      refine ⟨0, by simp, ?_⟩
      rw [List.length_cons, List.replicate_succ, List.set_cons_zero, ha1, ← htrep]

/-- The unit descriptors are pairwise distinct. -/
theorem unit_descriptors_nodup (S : ℕ) :
    (((List.range S).map fun i => (List.replicate S 0).set i 1)).Nodup := by
  refine List.Nodup.map_on ?_ (List.nodup_range S)
  intro i hi j hj hset
  by_contra hne
  have hjS : j < ((List.replicate S 0).set i 1).length := by
    rw [List.length_set, List.length_replicate]
    exact List.mem_range.mp hj
  have h1 : ((List.replicate S 0).set j 1).getD j 0 = 1 := by
    rw [List.getD_eq_getElem _ _ (by rw [← hset]; exact hjS)]
    exact List.getElem_set_self _
  have h2 : ((List.replicate S 0).set i 1).getD j 0 = 0 := by
    rw [List.getD_eq_getElem _ _ hjS, List.getElem_set_ne hne, List.getElem_replicate]
  rw [← hset] at h1
  rw [h1] at h2
  exact absurd h2 (by omega)

/-- Counting the higher-order descriptors: together with the order-0 tuple and the `S`
unit tuples they exhaust the `C(N + S, S)` multi-indices of degree at most `N`. -/
theorem k_counter_descriptors_count (N S : ℕ) (hN : 1 ≤ N) :
    (((ituples (N + 1) S).filter fun t =>
      decide (t.sum ≤ N ∧ 1 < t.sum)).length) + (1 + S) = Nat.choose (N + S) S := by
  obtain ⟨m, rfl⟩ : ∃ m, N = m + 1 := ⟨N - 1, by omega⟩
  have hmain : ((ituples (m + 1 + 1) S).filter fun t =>
        decide (t.sum ≤ m + 1 ∧ 1 < t.sum)) =
      (ituples (m + 1 + 1) S).filter fun t =>
        decide (t.sum ≤ m + 1) && decide (1 < t.sum) := by
    refine List.filter_congr fun t _ => ?_
    exact Bool.decide_and _ _
  have hsplit := length_filter_split (fun t : List ℕ => decide (t.sum ≤ m + 1))
    (fun t => decide (1 < t.sum)) (ituples (m + 1 + 1) S)
  have hsmall := length_filter_split
    (fun t : List ℕ => decide (t.sum ≤ m + 1) && !decide (1 < t.sum))
    (fun t => decide (t.sum = 0)) (ituples (m + 1 + 1) S)
  have hz : ((ituples (m + 1 + 1) S).filter fun t =>
        (decide (t.sum ≤ m + 1) && !decide (1 < t.sum)) && decide (t.sum = 0)) =
      (ituples (m + 1 + 1) S).filter fun t => decide (t.sum = 0) := by
    refine List.filter_congr fun t _ => ?_
    by_cases ha : t.sum ≤ m + 1 <;> by_cases hb : 1 < t.sum <;>
      by_cases hc : t.sum = 0 <;> simp [ha, hb, hc] <;> omega
  have ho : ((ituples (m + 1 + 1) S).filter fun t =>
        (decide (t.sum ≤ m + 1) && !decide (1 < t.sum)) && !decide (t.sum = 0)) =
      (ituples (m + 1 + 1) S).filter fun t => decide (t.sum = 1) := by
    refine List.filter_congr fun t _ => ?_
    by_cases ha : t.sum ≤ m + 1 <;> by_cases hb : 1 < t.sum <;>
      by_cases hc : t.sum = 0 <;> by_cases hd : t.sum = 1 <;>
      simp [ha, hb, hc, hd] <;> omega
  have hall : ((ituples (m + 1 + 1) S).filter fun t =>
      decide (t.sum ≤ m + 1)).length = Nat.choose ((m + 1) + S) S :=
    filter_ituples_length S (m + 1 + 1) (m + 1) (by omega)
  have hzero : ((ituples (m + 1 + 1) S).filter fun t => decide (t.sum = 0)) =
      [List.replicate S 0] := filter_sum_eq_zero S (m + 1)
  have hone : ((ituples (m + 1 + 1) S).filter fun t => decide (t.sum = 1)).length = S :=
    filter_sum_eq_one_length S m
  rw [hmain]
  rw [hz, ho, hzero] at hsmall
  rw [hall, hsmall, List.length_singleton, hone] at hsplit
  omega

/-- C3: for `S ≥ 1` species and truncation order `N ≥ 1`, the raw counter holds exactly one
moment per multi-index of length `S` and order at most `N` - `C(N+S, S)` entries with no
duplicate multi-index - and the central counter holds the order-0 moment plus exactly one
moment per multi-index of order between 2 and `N`, so it has exactly `S` fewer entries. -/
theorem generate_counters_exact (n_moments : ℕ) (species : List MSym)
    (hS : 1 ≤ species.length) (hN : 1 ≤ n_moments) :
    ((generate_n_and_k_counters n_moments species).2.length =
      Nat.choose (n_moments + species.length) species.length) ∧
    ((generate_n_and_k_counters n_moments species).2.map Moment.n_vector).Nodup ∧
    (∀ t : List ℕ,
      t ∈ (generate_n_and_k_counters n_moments species).2.map Moment.n_vector ↔
      (t.length = species.length ∧ t.sum ≤ n_moments)) ∧
    ((generate_n_and_k_counters n_moments species).1.map Moment.n_vector).Nodup ∧
    (∀ t : List ℕ,
      t ∈ (generate_n_and_k_counters n_moments species).1.map Moment.n_vector ↔
      (t.length = species.length ∧
        (t.sum = 0 ∨ (2 ≤ t.sum ∧ t.sum ≤ n_moments)))) ∧
    (generate_n_and_k_counters n_moments species).2.length =
      (generate_n_and_k_counters n_moments species).1.length + species.length := by
  set S := species.length with hSdef
  set N := n_moments with hNdef
  set kcd := (ituples (N + 1) S).filter
    (fun t => decide (t.sum ≤ N ∧ 1 < t.sum)) with hkcd
  set srt := sortBySum N kcd with hsrt
  set unitD := (List.range S).map (fun i => (List.replicate S 0).set i 1) with hunitD
  set zipmap := (unitD.zip species).map
    (fun ds => (⟨ds.1, ds.2⟩ : Moment)) with hzipmap
  set smap := srt.map (fun d => (⟨d, MSym.xm d⟩ : Moment)) with hsmap
  have hmemkcd : ∀ t : List ℕ, t ∈ kcd ↔ t.length = S ∧ t.sum ≤ N ∧ 1 < t.sum := by
    intro t
    rw [hkcd, List.mem_filter, ituples_mem]
    constructor
    · rintro ⟨⟨hlen, _⟩, hdec⟩
      have := of_decide_eq_true hdec
      exact ⟨hlen, this.1, this.2⟩
    · rintro ⟨hlen, hsum, hgt⟩
      refine ⟨⟨hlen, fun x hx => ?_⟩, decide_eq_true ⟨hsum, hgt⟩⟩
      have hle : x ≤ t.sum := List.single_le_sum (fun y _ => Nat.zero_le y) x hx
      omega
  have hsumle : ∀ x ∈ kcd, x.sum ≤ N := fun x hx => ((hmemkcd x).mp hx).2.1
  have hperm : srt.Perm kcd := sortBySum_perm N kcd hsumle
  have hmemsrt : ∀ t : List ℕ, t ∈ srt ↔ t ∈ kcd := fun t => hperm.mem_iff
  have hndsrt : srt.Nodup := hperm.nodup_iff.mpr
    (List.Nodup.filter _ (ituples_nodup S (N + 1)))
  have hsrtlen : srt.length = kcd.length := hperm.length_eq
  have hk : (generate_n_and_k_counters N species).2 =
      ((⟨List.replicate S 0, MSym.one⟩ : Moment) :: zipmap) ++ smap := rfl
  have hn : (generate_n_and_k_counters N species).1 =
      (⟨List.replicate S 0, MSym.one⟩ : Moment) ::
        (srt.filter fun m => decide (1 < m.sum)).enum.map
          (fun idxd => (⟨idxd.2, MSym.yxm (idxd.1 + 2)⟩ : Moment)) := rfl
  have hfs : (srt.filter fun m => decide (1 < m.sum)) = srt := by
    rw [List.filter_eq_self]
    intro a ha
    exact decide_eq_true ((hmemkcd a).mp ((hmemsrt a).mp ha)).2.2
  have hkmap : (generate_n_and_k_counters N species).2.map Moment.n_vector =
      List.replicate S 0 :: (unitD ++ srt) := by
    rw [hk, List.map_append, List.map_cons]
    rw [show (zipmap.map Moment.n_vector) = unitD from by
      rw [hzipmap, List.map_map]
      rw [show (Moment.n_vector ∘ fun ds : List ℕ × MSym =>
        (⟨ds.1, ds.2⟩ : Moment)) = Prod.fst from rfl]
      exact List.map_fst_zip unitD species (by
        rw [hunitD, List.length_map, List.length_range])]
    rw [show (smap.map Moment.n_vector) = srt from by
      rw [hsmap, List.map_map]
      rw [show (Moment.n_vector ∘ fun d : List ℕ => (⟨d, MSym.xm d⟩ : Moment)) =
        fun d : List ℕ => d from rfl]
      exact List.map_id' srt]
    rfl
  have hnmap : (generate_n_and_k_counters N species).1.map Moment.n_vector =
      List.replicate S 0 :: srt := by
    rw [hn, List.map_cons, List.map_map]
    rw [show ((Moment.n_vector ∘ fun idxd : ℕ × List ℕ =>
      (⟨idxd.2, MSym.yxm (idxd.1 + 2)⟩ : Moment))) = Prod.snd from rfl]
    rw [hfs, List.enum_map_snd]
  have hsum0 : (List.replicate S 0).sum = 0 := by simp
  have hsumunit : ∀ t ∈ unitD, t.sum = 1 := by
    intro t ht
    obtain ⟨i, hi, rfl⟩ := List.mem_map.mp ht
    exact replicate_set_sum S i (List.mem_range.mp hi)
  have hlenunit : ∀ t ∈ unitD, t.length = S := by
    intro t ht
    obtain ⟨i, _, rfl⟩ := List.mem_map.mp ht
    rw [List.length_set, List.length_replicate]
  have hcount := k_counter_descriptors_count N S hN
  rw [← hkcd] at hcount
  have hklen : (generate_n_and_k_counters N species).2.length =
      (zipmap.length + 1) + smap.length := by
    rw [hk, List.length_append, List.length_cons]
  have hzl : zipmap.length = S := by
    rw [hzipmap, List.length_map, List.length_zip, hunitD, List.length_map,
      List.length_range, ← hSdef, Nat.min_self]
  have hsl : smap.length = kcd.length := by
    rw [hsmap, List.length_map, hsrtlen]
  refine ⟨by omega, ?_, ?_, ?_, ?_, ?_⟩
  · rw [hkmap, List.nodup_cons]
    constructor
    · intro hmem
      rcases List.mem_append.mp hmem with h | h
      · have := hsumunit _ h
        omega
      · have := ((hmemkcd _).mp ((hmemsrt _).mp h)).2.2
        omega
    · refine List.nodup_append.mpr ⟨unit_descriptors_nodup S, hndsrt, ?_⟩
      intro a ha hb
      have h1 := hsumunit a ha
      have h2 := ((hmemkcd a).mp ((hmemsrt a).mp hb)).2.2
      omega
  · intro t
    rw [hkmap, List.mem_cons, List.mem_append]
    constructor
    · rintro (rfl | h | h)
      · exact ⟨List.length_replicate S 0, by omega⟩
      · exact ⟨hlenunit t h, by have := hsumunit t h; omega⟩
      · have := (hmemkcd t).mp ((hmemsrt t).mp h)
        exact ⟨this.1, this.2.1⟩
    · rintro ⟨hlen, hsum⟩
      rcases Nat.lt_or_ge t.sum 1 with h0 | h1
      · left
        have h00 : t.sum = 0 := by omega
        rw [List.eq_replicate_iff]
        exact ⟨hlen, List.sum_eq_zero_iff.mp h00⟩
      · rcases Nat.lt_or_ge t.sum 2 with h1b | h2
        · right; left
          have hs1 : t.sum = 1 := by omega
          obtain ⟨i, hi, ht⟩ := sum_eq_one_unit t hs1
          rw [hunitD]
          refine List.mem_map.mpr ⟨i, List.mem_range.mpr (by omega), ?_⟩
          rw [← hlen]
          exact ht.symm
        · right; right
          rw [hmemsrt, hmemkcd]
          exact ⟨hlen, hsum, by omega⟩
  · rw [hnmap, List.nodup_cons]
    refine ⟨fun hmem => ?_, hndsrt⟩
    have := ((hmemkcd _).mp ((hmemsrt _).mp hmem)).2.2
    omega
  · intro t
    rw [hnmap, List.mem_cons]
    constructor
    · rintro (rfl | h)
      · exact ⟨List.length_replicate S 0, Or.inl hsum0⟩
      · have := (hmemkcd t).mp ((hmemsrt t).mp h)
        exact ⟨this.1, Or.inr ⟨by omega, this.2.1⟩⟩
    · rintro ⟨hlen, hsum | hsum⟩
      · left
        rw [List.eq_replicate_iff]
        exact ⟨hlen, List.sum_eq_zero_iff.mp hsum⟩
      · right
        rw [hmemsrt, hmemkcd]
        exact ⟨hlen, hsum.2, by omega⟩
  · have hnlen : (generate_n_and_k_counters N species).1.length =
        (srt.filter fun m => decide (1 < m.sum)).enum.length + 1 := by
      rw [hn, List.length_cons, List.length_map]
    rw [hfs, List.enum_length] at hnlen
    omega

/-- C3 witness: the counters for one species at truncation order two. -/
theorem generate_counters_exact_witness :
    (generate_n_and_k_counters 2 [MSym.sp 0]).2.length = Nat.choose 3 1 ∧
    ([2] ∈ (generate_n_and_k_counters 2 [MSym.sp 0]).2.map Moment.n_vector ↔
      (([2] : List ℕ).length = 1 ∧ List.sum [2] ≤ 2)) ∧
    (generate_n_and_k_counters 2 [MSym.sp 0]).2.length =
      (generate_n_and_k_counters 2 [MSym.sp 0]).1.length + 1 :=
  ⟨(generate_counters_exact 2 [MSym.sp 0] (by decide) (by decide)).1,
   (generate_counters_exact 2 [MSym.sp 0] (by decide) (by decide)).2.2.1 [2],
   (generate_counters_exact 2 [MSym.sp 0] (by decide) (by decide)).2.2.2.2.2⟩

/-- C4: the order-0 moment labelled `1` leads both counters; the raw counter continues with
the `S` order-1 moments labelled by the species themselves; the remaining raw entries are in
ascending total order with ties broken by the (lexicographic) `itertools.product`
enumeration order; and the central counter's entries of order 2 and above carry exactly the
raw counter's order-2-and-above multi-indices, in the same positions. -/
theorem generate_counters_ordering (n_moments : ℕ) (species : List MSym)
    (hS : 1 ≤ species.length) (hN : 1 ≤ n_moments) :
    ((generate_n_and_k_counters n_moments species).2.head? =
        some ⟨List.replicate species.length 0, MSym.one⟩ ∧
      (generate_n_and_k_counters n_moments species).1.head? =
        some ⟨List.replicate species.length 0, MSym.one⟩) ∧
    (∀ i, i < species.length →
      (generate_n_and_k_counters n_moments species).2.getD (i + 1) ⟨[], MSym.one⟩ =
        ⟨(List.replicate species.length 0).set i 1, species.getD i MSym.one⟩) ∧
    List.Pairwise (fun a b : Moment => a.order < b.order ∨
        (a.order = b.order ∧ List.Lex (· < ·) a.n_vector b.n_vector))
      ((generate_n_and_k_counters n_moments species).2.drop (species.length + 1)) ∧
    ((generate_n_and_k_counters n_moments species).1.drop 1).map Moment.n_vector =
      ((generate_n_and_k_counters n_moments species).2.drop
        (species.length + 1)).map Moment.n_vector := by
  set S := species.length with hSdef
  set N := n_moments with hNdef
  set kcd := (ituples (N + 1) S).filter
    (fun t => decide (t.sum ≤ N ∧ 1 < t.sum)) with hkcd
  set srt := sortBySum N kcd with hsrt
  set unitD := (List.range S).map (fun i => (List.replicate S 0).set i 1) with hunitD
  set zipmap := (unitD.zip species).map
    (fun ds => (⟨ds.1, ds.2⟩ : Moment)) with hzipmap
  set smap := srt.map (fun d => (⟨d, MSym.xm d⟩ : Moment)) with hsmap
  have hk : (generate_n_and_k_counters N species).2 =
      ((⟨List.replicate S 0, MSym.one⟩ : Moment) :: zipmap) ++ smap := rfl
  have hn : (generate_n_and_k_counters N species).1 =
      (⟨List.replicate S 0, MSym.one⟩ : Moment) ::
        (srt.filter fun m => decide (1 < m.sum)).enum.map
          (fun idxd => (⟨idxd.2, MSym.yxm (idxd.1 + 2)⟩ : Moment)) := rfl
  have hsumle : ∀ x ∈ kcd, x.sum ≤ N :=
    fun x hx => (of_decide_eq_true (List.mem_filter.mp hx).2).1
  have hgt1 : ∀ x ∈ kcd, 1 < x.sum :=
    fun x hx => (of_decide_eq_true (List.mem_filter.mp hx).2).2
  have hperm : srt.Perm kcd := sortBySum_perm N kcd hsumle
  have hfs : (srt.filter fun m => decide (1 < m.sum)) = srt := by
    rw [List.filter_eq_self]
    intro a ha
    exact decide_eq_true (hgt1 a (hperm.mem_iff.mp ha))
  have hzl : zipmap.length = S := by
    rw [hzipmap, List.length_map, List.length_zip, hunitD, List.length_map,
      List.length_range, ← hSdef, Nat.min_self]
  refine ⟨⟨rfl, rfl⟩, ?_, ?_, ?_⟩
  · intro i hi
    rw [hk]
    have hiS : i < S := hi
    have hlt : i + 1 < (((⟨List.replicate S 0, MSym.one⟩ : Moment) :: zipmap) ++
        smap).length := by
      rw [List.length_append, List.length_cons, hzl]
      omega
    have hlt2 : i + 1 < ((⟨List.replicate S 0, MSym.one⟩ : Moment) :: zipmap).length := by
      rw [List.length_cons, hzl]
      omega
    rw [List.getD_eq_getElem _ _ hlt, List.getElem_append_left hlt2,
      List.getElem_cons_succ]
    have hizip : i < (unitD.zip species).length := by
      rw [List.length_zip, hunitD, List.length_map, List.length_range, ← hSdef,
        Nat.min_self]
      exact hiS
    simp only [hzipmap, List.getElem_map, List.getElem_zip, hunitD, List.getElem_range]
    rw [List.getD_eq_getElem species _ hi]
  · rw [hk, show S + 1 = ((⟨List.replicate S 0, MSym.one⟩ : Moment) :: zipmap).length
      from by rw [List.length_cons, hzl], List.drop_left, hsmap]
    refine List.pairwise_map.mpr ?_
    have hpkcd : List.Pairwise (List.Lex (· < ·)) kcd :=
      (ituples_pairwise_lex S (N + 1)).filter _
    exact sortBySum_pairwise N kcd (List.Lex (· < ·)) hpkcd
  · rw [hn, hk, List.drop_one, List.tail_cons,
      show S + 1 = ((⟨List.replicate S 0, MSym.one⟩ : Moment) :: zipmap).length
        from by rw [List.length_cons, hzl], List.drop_left, hfs]
    rw [List.map_map, List.map_map]
    rw [show (Moment.n_vector ∘ fun idxd : ℕ × List ℕ =>
      (⟨idxd.2, MSym.yxm (idxd.1 + 2)⟩ : Moment)) = Prod.snd from rfl]
    rw [show (Moment.n_vector ∘ fun d : List ℕ => (⟨d, MSym.xm d⟩ : Moment)) =
      fun d : List ℕ => d from rfl]
    rw [List.enum_map_snd, List.map_id']

theorem generate_counters_ordering_witness :
    (generate_n_and_k_counters 2 [MSym.sp 0]).2.head? = some ⟨[0], MSym.one⟩ ∧
    (generate_n_and_k_counters 2 [MSym.sp 0]).2.getD 1 ⟨[], MSym.one⟩ =
      ⟨[1], MSym.sp 0⟩ ∧
    ((generate_n_and_k_counters 2 [MSym.sp 0]).1.drop 1).map Moment.n_vector =
      ((generate_n_and_k_counters 2 [MSym.sp 0]).2.drop 2).map Moment.n_vector := by
  obtain ⟨⟨h1, -⟩, h2, -, h4⟩ :=
    generate_counters_ordering 2 [MSym.sp 0] (by decide) (by decide)
  exact ⟨h1, h2 0 (by decide), h4⟩
